import Mathlib

/-!
# hcl2json: value lifting and AST serialization

A shallow embedding of `packages/@cdktf/hcl2json/main.go`.

The program is written against three libraries whose data it manipulates:
`cty` (structural values), `hcl`/`hclsyntax` (positions, traversals, expression
nodes and the `Walk` visitor protocol) and `encoding/json`.  The parts of those
libraries that the program observes are embedded here as plain data types and
total functions; the parsers, the JSON evaluation and the encoders of library types
are taken as parameters.  Everything that is defined in `main.go` itself
(`registrationWrapper`, the handlers `parse`, `parseExpression` and
`getExpressionAst`, `expressionForValue`, `literalValueExpr`,
`operationNamesLookup`, `convertPosToAst`, `convertRangeToAst`,
`convertTraversal`, `getOperationName`, `ExpressionWalker.Enter`,
`ExpressionWalker.Exit`, `expressionToMarshalledAst`) is translated line by line.
A Go panic is the result `none`.
-/

namespace Hcl2Json

/-! ## hcl positions and ranges -/

/-- Source position `hcl.Pos`. Go `int` fields are unbounded integers here. -/
structure Pos where
  Line : Int
  Column : Int
  Byte : Int
deriving DecidableEq, Repr

/-- Source range `hcl.Range`. -/
structure Range where
  Filename : String
  Start : Pos
  End : Pos
deriving DecidableEq, Repr

/-- The zero value `hcl.Pos{}`. -/
def Pos.zero : Pos := ⟨0, 0, 0⟩

/-- The zero value `hcl.Range{}`. -/
def Range.zero : Range := ⟨"", Pos.zero, Pos.zero⟩

/-- Library function `hcl.RangeBetween(start, end)`: file name and start of the
first range, end of the second. -/
def RangeBetween (start stop : Range) : Range :=
  ⟨start.Filename, start.Start, stop.End⟩

/-- A diagnostic `hcl.Diagnostic`; `Severity` 1 is `hcl.DiagError`. -/
structure Diagnostic where
  Severity : Nat
  Summary : String
  Detail : String
deriving DecidableEq, Repr

/-- The slice type `hcl.Diagnostics`. -/
abbrev Diagnostics := List Diagnostic

/-! ## cty types and values -/

/-- Type descriptors `cty.Type`. -/
inductive CtyType where
  | string
  | number
  | bool
  | dynamic
  | list (ety : CtyType)
  | map (ety : CtyType)
  | set (ety : CtyType)
  | tuple (etys : List CtyType)
  | object (atys : List (String × CtyType))
  | capsule (name : String)

/-- The numeric payload of a `cty.Number` (a `big.Float`): mantissa and binary
exponent. The program never inspects it. -/
structure BigFloat where
  mant : Int
  exp : Int
deriving DecidableEq, Repr

/-- Known values `cty.Value`. `null ty` is `cty.NullVal(ty)`. The attributes of an
object and the entries of a map are listed in the order in which cty's
`ElementIterator` visits them (ascending key). Unknown values are outside the
model: `expressionForValue` documents that it supports known values only. -/
inductive Value where
  | null (ty : CtyType)
  | string (s : String)
  | number (n : BigFloat)
  | bool (b : Bool)
  | tuple (elems : List Value)
  | object (attrs : List (String × Value))
  | list (ety : CtyType) (elems : List Value)
  | map (ety : CtyType) (elems : List (String × Value))

/-- Method `Value.IsNull`. -/
def Value.IsNull : Value → Bool
  | .null _ => true
  | _ => false

mutual
/-- Method `Value.Type` (renamed: `Type` is reserved in Lean). -/
def Value.ctyType : Value → CtyType
  | .null ty => ty
  | .string _ => .string
  | .number _ => .number
  | .bool _ => .bool
  | .tuple elems => .tuple (Value.elemTypes elems)
  | .object attrs => .object (Value.attrTypes attrs)
  | .list ety _ => .list ety
  | .map ety _ => .map ety
/-- Element types of a tuple value. -/
def Value.elemTypes : List Value → List CtyType
  | [] => []
  | v :: vs => v.ctyType :: Value.elemTypes vs
/-- Attribute types of an object value. -/
def Value.attrTypes : List (String × Value) → List (String × CtyType)
  | [] => []
  | (k, v) :: kvs => (k, v.ctyType) :: Value.attrTypes kvs
end

/-- Test `t == cty.String`. -/
def CtyType.IsString : CtyType → Bool
  | .string => true
  | _ => false

/-- Method `Type.IsTupleType`. -/
def CtyType.IsTupleType : CtyType → Bool
  | .tuple _ => true
  | _ => false

/-- Method `Type.IsObjectType`. -/
def CtyType.IsObjectType : CtyType → Bool
  | .object _ => true
  | _ => false

/-- Method `Value.AsString` on a known, non-null string; other values make the Go
method panic (`none`). -/
def Value.AsString : Value → Option String
  | .string s => some s
  | _ => none

/-- The integer number value `cty.NumberIntVal(i)`. -/
def NumberIntVal (i : Int) : Value := .number ⟨i, 0⟩

/-- Keys handed out by the element iterator of a sequence: the indices from `i`. -/
def indexKeys : Nat → List Value → List (Value × Value)
  | _, [] => []
  | i, v :: vs => (NumberIntVal i, v) :: indexKeys (i + 1) vs

/-- Keys handed out by the element iterator of an object or map: string values. -/
def stringKeys : List (String × Value) → List (Value × Value)
  | [] => []
  | (k, v) :: kvs => (Value.string k, v) :: stringKeys kvs

/-- The sequence of `(key, value)` pairs produced by `val.ElementIterator()`:
index keys for tuples and lists, string keys for objects and maps. Iterating any
other value makes the Go method panic (`none`). -/
def Value.ElementIterator : Value → Option (List (Value × Value))
  | .tuple elems => some (indexKeys 0 elems)
  | .list _ elems => some (indexKeys 0 elems)
  | .object attrs => some (stringKeys attrs)
  | .map _ elems => some (stringKeys elems)
  | _ => none

/-! ## hcl traversals and hclsyntax expressions -/

/-- Traversal steps `hcl.Traverser`. -/
inductive Traverser where
  | TraverseRoot (Name : String) (SrcRange : Range)
  | TraverseAttr (Name : String) (SrcRange : Range)
  | TraverseIndex (Key : Value) (SrcRange : Range)
  | TraverseSplat (Each : List Traverser) (SrcRange : Range)

/-- The slice type `hcl.Traversal`. -/
abbrev Traversal := List Traverser

/-- Operation identities `*hclsyntax.Operation`: the fifteen package-level
operations, and `other` for any other pointer. `operationNamesLookup` is keyed by
pointer identity. `hasImpl` tells whether the pointer refers to an operation whose
`Impl` function is set: it is `false` for `&hclsyntax.Operation{}` and for the nil
pointer, `true` for a copy of one of the package-level operations. -/
inductive Operation where
  | OpLogicalOr
  | OpLogicalAnd
  | OpLogicalNot
  | OpEqual
  | OpNotEqual
  | OpGreaterThan
  | OpGreaterThanOrEqual
  | OpLessThan
  | OpLessThanOrEqual
  | OpAdd
  | OpSubtract
  | OpMultiply
  | OpDivide
  | OpModulo
  | OpNegate
  | other (id : Nat) (hasImpl : Bool)
deriving DecidableEq, Repr

/-- Whether the field `Impl` of the operation is set. Each of the fifteen
package-level operations has an implementation. -/
def Operation.hasImpl : Operation → Bool
  | .other _ b => b
  | _ => true

/-- Implementations of the interface `hclsyntax.Expression`. Each constructor lists
the struct fields that the program, `StartRange` or the child walk reads.
`OtherExpr` stands for every implementation that `Enter` does not name
(`ObjectConsKeyExpr`, `AnonSymbolExpr`, `ParenthesesExpr`, ...): the program only
observes the start range of such a node and the child nodes it offers to a walk.
An item of `ObjectConsExpr` is the pair `(KeyExpr, ValueExpr)`. -/
inductive Expression where
  | LiteralValueExpr (Val : Value) (SrcRange : Range)
  | ScopeTraversalExpr (Traversal : Traversal) (SrcRange : Range)
  | RelativeTraversalExpr (Source : Expression) (Traversal : Traversal) (SrcRange : Range)
  | FunctionCallExpr (Name : String) (Args : List Expression) (ExpandFinal : Bool)
      (NameRange OpenParenRange CloseParenRange : Range)
  | ConditionalExpr (Condition TrueResult FalseResult : Expression) (SrcRange : Range)
  | IndexExpr (Collection Key : Expression) (SrcRange OpenRange : Range)
  | TupleConsExpr (Exprs : List Expression) (SrcRange OpenRange : Range)
  | ObjectConsExpr (Items : List (Expression × Expression)) (SrcRange OpenRange : Range)
  | ForExpr (KeyVar ValVar : String) (CollExpr : Expression) (KeyExpr : Option Expression)
      (ValExpr : Expression) (CondExpr : Option Expression) (SrcRange OpenRange : Range)
  | SplatExpr (Source Each : Expression) (SrcRange MarkerRange : Range)
  | BinaryOpExpr (LHS : Expression) (Op : Operation) (RHS : Expression) (SrcRange : Range)
  | UnaryOpExpr (Op : Operation) (Val : Expression) (SrcRange SymbolRange : Range)
  | TemplateExpr (Parts : List Expression) (SrcRange : Range)
  | TemplateJoinExpr (Tuple : Expression)
  | TemplateWrapExpr (Wrapped : Expression) (SrcRange : Range)
  | OtherExpr (StartRange : Range) (ChildNodes : List Expression)

/-- The library function `hclsyntax.ParseTemplate(src, filename, start)`, taken as
a parameter: it returns an expression and diagnostics. A Go string and the byte
slice converted from it hold the same bytes; the slice `src` is represented by the
string that holds its bytes. -/
abbrev TemplateParser := String → String → Pos → Expression × Diagnostics

/-! ## Value lifting -/

/-- Source function `literalValueExpr`: `&hclsyntax.LiteralValueExpr{Val: val}, nil`. -/
def literalValueExpr (val : Value) : Expression × Diagnostics :=
  (.LiteralValueExpr val Range.zero, [])

/-- The string case of `expressionForValue`:
`hclsyntax.ParseTemplate([]byte(raw), "", hcl.Pos{})`. -/
def templateForString (ParseTemplate : TemplateParser) (raw : String) :
    Expression × Diagnostics :=
  ParseTemplate raw "" Pos.zero

mutual
/-- Source function `expressionForValue`. The cases follow the source's switch: the
null test comes first, then string, tuple type, object type, and the default. The
key handed out by an object's iterator is the string value of the attribute name,
so the call on the key is the string case (see `expressionForValue_key`). -/
def expressionForValue (ParseTemplate : TemplateParser) : Value → Expression × Diagnostics
  | .null ty => literalValueExpr (.null ty)
  | .string s => templateForString ParseTemplate s
  | .tuple elems =>
      let r := tupleLoop ParseTemplate elems ([], [])
      (.TupleConsExpr r.1 Range.zero Range.zero, r.2)
  | .object attrs =>
      let r := objectLoop ParseTemplate attrs ([], [])
      (.ObjectConsExpr r.1 Range.zero Range.zero, r.2)
  | .number n => literalValueExpr (.number n)
  | .bool b => literalValueExpr (.bool b)
  | .list ety elems => literalValueExpr (.list ety elems)
  | .map ety elems => literalValueExpr (.map ety elems)
/-- The loop of the tuple case over the remaining elements, with the state
`(expr.Exprs, diags)`. -/
def tupleLoop (ParseTemplate : TemplateParser) :
    List Value → List Expression × Diagnostics → List Expression × Diagnostics
  | [], acc => acc
  | elemVal :: rest, (exprs, diags) =>
      let r := expressionForValue ParseTemplate elemVal
      tupleLoop ParseTemplate rest (exprs ++ [r.1], diags ++ r.2)
/-- The loop of the object case over the remaining attributes, with the state
`(expr.Items, diags)`. -/
def objectLoop (ParseTemplate : TemplateParser) :
    List (String × Value) → List (Expression × Expression) × Diagnostics →
      List (Expression × Expression) × Diagnostics
  | [], acc => acc
  | (name, valVal) :: rest, (items, diags) =>
      let k := templateForString ParseTemplate name
      let v := expressionForValue ParseTemplate valVal
      objectLoop ParseTemplate rest (items ++ [(k.1, v.1)], (diags ++ k.2) ++ v.2)
end

mutual
/-- Size of a value: one for the value itself, plus the sizes of its elements; an
attribute counts its name (a string value of size one) and its value. -/
def Value.size : Value → Nat
  | .null _ => 1
  | .string _ => 1
  | .number _ => 1
  | .bool _ => 1
  | .tuple elems => 1 + Value.sizeList elems
  | .object attrs => 1 + Value.sizeAttrs attrs
  | .list _ elems => 1 + Value.sizeList elems
  | .map _ elems => 1 + Value.sizeAttrs elems
/-- Total size of a list of values. -/
def Value.sizeList : List Value → Nat
  | [] => 0
  | v :: vs => v.size + Value.sizeList vs
/-- Total size of a list of named values. -/
def Value.sizeAttrs : List (String × Value) → Nat
  | [] => 0
  | (_, v) :: kvs => 1 + v.size + Value.sizeAttrs kvs
end

/-- The loop of the tuple case over the iterator's remaining elements, written with
the recursive call `recur`. -/
def tupleLoopWith (recur : Value → Option (Expression × Diagnostics)) :
    List (Value × Value) → List Expression × Diagnostics →
      Option (List Expression × Diagnostics)
  | [], acc => some acc
  | (_, elemVal) :: rest, (exprs, diags) =>
      match recur elemVal with
      | none => none
      | some (elemExpr, moreDiags) =>
          tupleLoopWith recur rest (exprs ++ [elemExpr], diags ++ moreDiags)

/-- The loop of the object case over the iterator's remaining elements, written with
the recursive call `recur`. -/
def objectLoopWith (recur : Value → Option (Expression × Diagnostics)) :
    List (Value × Value) → List (Expression × Expression) × Diagnostics →
      Option (List (Expression × Expression) × Diagnostics)
  | [], acc => some acc
  | (keyVal, valVal) :: rest, (items, diags) =>
      match recur keyVal with
      | none => none
      | some (keyExpr, keyDiags) =>
          match recur valVal with
          | none => none
          | some (valExpr, valDiags) =>
              objectLoopWith recur rest
                (items ++ [(keyExpr, valExpr)], (diags ++ keyDiags) ++ valDiags)

/-- Source function `expressionForValue` with its text kept as it stands: the switch
on `val.IsNull()` and `val.Type()`, the element iterator, and a recursive call for
every element, key and value. `fuel` bounds the depth of nested calls; `none` means
that the bound was reached or that a library method panicked. -/
def expressionForValueFuel (ParseTemplate : TemplateParser) :
    Nat → Value → Option (Expression × Diagnostics)
  | 0, _ => none
  | fuel + 1, val =>
      if val.IsNull then some (literalValueExpr val)
      else if val.ctyType.IsString then
        match val.AsString with
        | none => none
        | some raw => some (ParseTemplate raw "" Pos.zero)
      else if val.ctyType.IsTupleType then
        match val.ElementIterator with
        | none => none
        | some it =>
            match tupleLoopWith (expressionForValueFuel ParseTemplate fuel) it ([], []) with
            | none => none
            | some r => some (.TupleConsExpr r.1 Range.zero Range.zero, r.2)
      else if val.ctyType.IsObjectType then
        match val.ElementIterator with
        | none => none
        | some it =>
            match objectLoopWith (expressionForValueFuel ParseTemplate fuel) it ([], []) with
            | none => none
            | some r => some (.ObjectConsExpr r.1 Range.zero Range.zero, r.2)
      else some (literalValueExpr val)

/-! ## The serializable tree -/

/-- Source struct `PosAst`. -/
structure PosAst where
  Line : Int
  Column : Int
  Byte : Int
deriving DecidableEq, Repr

/-- Source struct `RangeAst`. -/
structure RangeAst where
  Start : PosAst
  End : PosAst
deriving DecidableEq, Repr

/-- Source struct `TraversalAst`. -/
structure TraversalAst where
  Segment : String
  Range : Range
deriving DecidableEq, Repr

/-- Source function `convertPosToAst`. -/
def convertPosToAst (p : Pos) : PosAst :=
  { Line := p.Line, Column := p.Column, Byte := p.Byte }

/-- Source function `convertRangeToAst`. -/
def convertRangeToAst (r : Range) : RangeAst :=
  { Start := convertPosToAst r.Start, End := convertPosToAst r.End }

/-- Source function `convertTraversal`: the loop appends an entry for a root step
and for an attribute step; the type switch has no other case. -/
def convertTraversal (t : Traversal) : List TraversalAst :=
  t.foldl (fun res p =>
    match p with
    | .TraverseRoot name srcRange => res ++ [{ Segment := name, Range := srcRange }]
    | .TraverseAttr name srcRange => res ++ [{ Segment := name, Range := srcRange }]
    | _ => res) []

/-- Source table `operationNamesLookup`, in the order of the source. -/
def operationNamesLookup : List (Operation × String) :=
  [ (.OpLogicalOr, "LogicalOr"),
    (.OpLogicalAnd, "LogicalAnd"),
    (.OpLogicalNot, "LogicalNot"),
    (.OpEqual, "Equal"),
    (.OpNotEqual, "NotEqual"),
    (.OpGreaterThan, "GreaterThan"),
    (.OpGreaterThanOrEqual, "GreaterThanOrEqual"),
    (.OpLessThan, "LessThan"),
    (.OpLessThanOrEqual, "LessThanOrEqual"),
    (.OpAdd, "Add"),
    (.OpSubtract, "Subtract"),
    (.OpMultiply, "Multiply"),
    (.OpDivide, "Divide"),
    (.OpModulo, "Modulo"),
    (.OpNegate, "Negate") ]

/-- Source function `getOperationName`: a Go map lookup, which yields the zero
value `""` for a missing key. -/
def getOperationName (op : Operation) : String :=
  (operationNamesLookup.lookup op).getD ""

/-- The values the program stores in a node's `Meta` map (`interface{}`): a string,
a bool, a `{"start", "end"}` map of two `PosAst`, the result of
`convertTraversal`, or a `cty.Type`. -/
inductive MetaValue where
  | str (s : String)
  | bool (b : Bool)
  | posRange (start stop : PosAst)
  | traversal (segments : List TraversalAst)
  | ctyType (t : CtyType)

/-- A Go `map[string]interface{}` as an association list with distinct keys. -/
abbrev MetaMap := List (String × MetaValue)

/-- The map assignment `m[k] = v`. -/
def metaSet (m : MetaMap) (k : String) (v : MetaValue) : MetaMap :=
  if m.any (fun kv => kv.1 == k) then
    m.map (fun kv => if kv.1 == k then (k, v) else kv)
  else m ++ [(k, v)]

/-- A pointer `*ExpressionAst`: the address of the walker's `Root` field, or the
`i`-th `newAst` object allocated by `Enter`. -/
inductive Ptr where
  | root
  | heap (i : Nat)
deriving DecidableEq, Repr

/-- Source struct `ExpressionAst` (`Type` is reserved in Lean, hence `Type_`).
A nil slice or map and an empty one are both the empty list. -/
structure ExpressionAst where
  Parent : Option Ptr
  Children : List Ptr
  Type_ : String
  Meta : MetaMap
  Range : RangeAst

/-- The zero value `ExpressionAst{}`. -/
def ExpressionAst.zero : ExpressionAst :=
  { Parent := none, Children := [], Type_ := "", Meta := [],
    Range := ⟨⟨0, 0, 0⟩, ⟨0, 0, 0⟩⟩ }

/-- Source struct `ExpressionWalker`, together with the objects its pointers refer
to: `heap` holds the `newAst` objects in allocation order. The top of `Stack` is
its last element, as in the Go slice. -/
structure ExpressionWalker where
  Root : ExpressionAst
  Stack : List Ptr
  Current : Option Ptr
  heap : List ExpressionAst

/-- The walker `&ExpressionWalker{}`. -/
def ExpressionWalker.fresh : ExpressionWalker :=
  { Root := ExpressionAst.zero, Stack := [], Current := none, heap := [] }

/-- Apply `f` to the `i`-th element of a list. -/
def updateAt {α : Type} (f : α → α) : Nat → List α → List α
  | _, [] => []
  | 0, a :: as => f a :: as
  | i + 1, a :: as => a :: updateAt f i as

/-- Read through a pointer. -/
def ExpressionWalker.deref (w : ExpressionWalker) : Ptr → Option ExpressionAst
  | .root => some w.Root
  | .heap i => w.heap.get? i

/-- Write through a pointer: replace the object at `p` by `f` of it. -/
def ExpressionWalker.update (w : ExpressionWalker) (p : Ptr)
    (f : ExpressionAst → ExpressionAst) : ExpressionWalker :=
  match p with
  | .root => { w with Root := f w.Root }
  | .heap i => { w with heap := updateAt f i w.heap }

/-! ## The hclsyntax walk -/

/-- Implementations of the interface `hclsyntax.Node` that a walk of an expression
can visit: an expression, or the synthetic `hclsyntax.ChildScope` wrapper, which
has the methods of `Node` only and is not an `Expression`. -/
inductive Node where
  | expr (e : Expression)
  | ChildScope (LocalNames : List String) (Expr : Expression)

/-- The order of visits of `hclsyntax.Walk`: a node and the walks of the child
nodes that its `walkChildNodes` method yields, in order. -/
inductive NodeTree where
  | mk (node : Node) (children : List NodeTree)

/-- The set `scopeNames` built by `ForExpr.walkChildNodes`. -/
def forScopeNames (keyVar valVar : String) : List String :=
  (if keyVar = "" then [] else [keyVar]) ++ (if valVar = "" then [] else [valVar])

mutual
/-- Library method `StartRange` of each expression type. `TemplateExpr` returns
`e.Parts[0].StartRange()`, which panics (`none`) when `Parts` is empty. -/
def Expression.StartRange : Expression → Option Range
  | .LiteralValueExpr _ srcRange => some srcRange
  | .ScopeTraversalExpr _ srcRange => some srcRange
  | .RelativeTraversalExpr _ _ srcRange => some srcRange
  | .FunctionCallExpr _ _ _ nameRange openParenRange _ =>
      some (RangeBetween nameRange openParenRange)
  | .ConditionalExpr condition _ _ _ => condition.StartRange
  | .IndexExpr _ _ _ openRange => some openRange
  | .TupleConsExpr _ _ openRange => some openRange
  | .ObjectConsExpr _ _ openRange => some openRange
  | .ForExpr _ _ _ _ _ _ _ openRange => some openRange
  | .SplatExpr _ _ _ markerRange => some markerRange
  | .BinaryOpExpr lhs _ _ _ => lhs.StartRange
  | .UnaryOpExpr _ _ _ symbolRange => some symbolRange
  | .TemplateExpr parts _ => Expression.firstStartRange parts
  | .TemplateJoinExpr tuple => tuple.StartRange
  | .TemplateWrapExpr _ srcRange => some srcRange
  | .OtherExpr startRange _ => some startRange
/-- The call `Parts[0].StartRange()`. -/
def Expression.firstStartRange : List Expression → Option Range
  | [] => none
  | part :: _ => part.StartRange
end

mutual
/-- Library method `walkChildNodes` of each expression type, unfolded into the tree
of visits: the children are visited in the listed order. `ObjectConsExpr` offers the
key and then the value of each item; `ForExpr` offers `CollExpr` and then `KeyExpr`
(if set), `ValExpr` and `CondExpr` (if set), each wrapped in a `ChildScope`. -/
def Expression.walkTree : Expression → NodeTree
  | .LiteralValueExpr v r => .mk (.expr (.LiteralValueExpr v r)) []
  | .ScopeTraversalExpr t r => .mk (.expr (.ScopeTraversalExpr t r)) []
  | .RelativeTraversalExpr src t r =>
      .mk (.expr (.RelativeTraversalExpr src t r)) [src.walkTree]
  | .FunctionCallExpr n args x nr op cp =>
      .mk (.expr (.FunctionCallExpr n args x nr op cp)) (Expression.walkTrees args)
  | .ConditionalExpr c t f r =>
      .mk (.expr (.ConditionalExpr c t f r)) [c.walkTree, t.walkTree, f.walkTree]
  | .IndexExpr c k r o => .mk (.expr (.IndexExpr c k r o)) [c.walkTree, k.walkTree]
  | .TupleConsExpr es r o => .mk (.expr (.TupleConsExpr es r o)) (Expression.walkTrees es)
  | .ObjectConsExpr items r o =>
      .mk (.expr (.ObjectConsExpr items r o)) (Expression.walkItems items)
  | .ForExpr kv vv coll key val cond r o =>
      .mk (.expr (.ForExpr kv vv coll key val cond r o))
        ([coll.walkTree] ++ Expression.walkScopeOpt (forScopeNames kv vv) key
          ++ [.mk (.ChildScope (forScopeNames kv vv) val) [val.walkTree]]
          ++ Expression.walkScopeOpt (forScopeNames kv vv) cond)
  | .SplatExpr src each r m => .mk (.expr (.SplatExpr src each r m)) [src.walkTree, each.walkTree]
  | .BinaryOpExpr l op rhs r => .mk (.expr (.BinaryOpExpr l op rhs r)) [l.walkTree, rhs.walkTree]
  | .UnaryOpExpr op v r sym => .mk (.expr (.UnaryOpExpr op v r sym)) [v.walkTree]
  | .TemplateExpr parts r => .mk (.expr (.TemplateExpr parts r)) (Expression.walkTrees parts)
  | .TemplateJoinExpr t => .mk (.expr (.TemplateJoinExpr t)) [t.walkTree]
  | .TemplateWrapExpr wr r => .mk (.expr (.TemplateWrapExpr wr r)) [wr.walkTree]
  | .OtherExpr r cs => .mk (.expr (.OtherExpr r cs)) (Expression.walkTrees cs)
/-- Visits of a list of expressions. -/
def Expression.walkTrees : List Expression → List NodeTree
  | [] => []
  | e :: es => e.walkTree :: Expression.walkTrees es
/-- Visits of the items of an object constructor: key, then value. -/
def Expression.walkItems : List (Expression × Expression) → List NodeTree
  | [] => []
  | (k, v) :: rest => k.walkTree :: v.walkTree :: Expression.walkItems rest
/-- Visit of an optional expression of a `ForExpr`, wrapped in a `ChildScope`. -/
def Expression.walkScopeOpt (names : List String) : Option Expression → List NodeTree
  | none => []
  | some e => [.mk (.ChildScope names e) [e.walkTree]]
end

/-! ## The walker -/

/-- The assignment `w.Current.Type = t`. -/
def ExpressionAst.setType (cur : ExpressionAst) (t : String) : ExpressionAst :=
  { cur with Type_ := t }

/-- The assignment `w.Current.Meta[k] = v`. -/
def ExpressionAst.setMeta (cur : ExpressionAst) (k : String) (v : MetaValue) : ExpressionAst :=
  { cur with Meta := metaSet cur.Meta k v }

/-- The `{"start": ..., "end": ...}` map that `Enter` builds from a range. -/
def posRangeOf (r : Range) : MetaValue :=
  .posRange (convertPosToAst r.Start) (convertPosToAst r.End)

/-- The node after the assignments of the type switch of `Enter`, with the call
`Value(nil)` of an operation case taken to return a value of type `valueType e`:
the description of the node that `enterSwitch` yields when it does not panic
(`enterSwitch_eq`). -/
def enterSwitchFields (valueType : Expression → CtyType) (expr : Expression)
    (cur : ExpressionAst) : ExpressionAst :=
  match expr with
  | .FunctionCallExpr name _ expandFinal nameRange openParenRange closeParenRange =>
      let cur := cur.setType "function"
      let cur := cur.setMeta "name" (.str name)
      let cur := cur.setMeta "expandedFinalArgument" (.bool expandFinal)
      let cur := cur.setMeta "nameRange" (posRangeOf nameRange)
      let cur := cur.setMeta "openParenRange" (posRangeOf openParenRange)
      cur.setMeta "closeParenRange" (posRangeOf closeParenRange)
  | .TupleConsExpr _ _ _ => cur.setType "Tuple"
  | .ObjectConsExpr _ _ _ => cur.setType "Object"
  | .TemplateExpr _ _ => cur.setType "Template"
  | .TemplateJoinExpr _ => cur.setType "TemplateJoin"
  | .TemplateWrapExpr _ _ => cur.setType "TemplateWrap"
  | .ScopeTraversalExpr traversal _ =>
      let cur := cur.setType "ScopeTraversal"
      cur.setMeta "traversal" (.traversal (convertTraversal traversal))
  | .RelativeTraversalExpr _ _ _ => cur.setType "RelativeTraversal"
  | .LiteralValueExpr v _ =>
      let cur := cur.setType "LiteralValue"
      cur.setMeta "type" (.ctyType v.ctyType)
  | .IndexExpr _ _ _ _ => cur.setType "Index"
  | .SplatExpr _ _ _ _ => cur.setType "Splat"
  | .ForExpr _ _ _ _ _ _ _ _ => cur.setType "For"
  | .ConditionalExpr _ _ _ _ => cur.setType "Conditional"
  | .UnaryOpExpr op val r sym =>
      let cur := cur.setType "UnaryOp"
      let cur := cur.setMeta "operator" (.str (getOperationName op))
      cur.setMeta "returnType" (.ctyType (valueType (.UnaryOpExpr op val r sym)))
  | .BinaryOpExpr lhs op rhs r =>
      let cur := cur.setType "BinaryOp"
      let cur := cur.setMeta "operator" (.str (getOperationName op))
      cur.setMeta "returnType" (.ctyType (valueType (.BinaryOpExpr lhs op rhs r)))
  | .OtherExpr _ _ => cur

/-- The library call `e.Value(nil)` on a unary or binary operation node `e` with
operator `op`, as far as `Enter` uses it. The method starts with
`impl := e.Op.Impl; params := impl.Params()`, which panics (`none`) when the
operation has no implementation. The rest of the call, the evaluation of the
operands and the call of the implementation, is represented by `valueType e`, the
type of the value that it returns. -/
def operationValueType (valueType : Expression → CtyType) (op : Operation)
    (e : Expression) : Option CtyType :=
  if op.hasImpl then some (valueType e) else none

/-- Whether the call `Value(nil)` that the type switch of `Enter` makes on the node
returns: the cases other than the two operation cases make no call that can
panic (`LiteralValueExpr.Value` returns the field `Val`). -/
def Expression.valueNilReturns : Expression → Bool
  | .UnaryOpExpr op _ _ _ => op.hasImpl
  | .BinaryOpExpr _ op _ _ => op.hasImpl
  | _ => true

/-- The type switch of `Enter` on the current node. In the two operation cases the
type is assigned first, then `Value(nil)` is called, which may panic (`none`), and
only then `operator` and `returnType` are written. For a literal node the value is
the node's `Val`. The default case only prints. -/
def enterSwitch (valueType : Expression → CtyType) (expr : Expression)
    (cur : ExpressionAst) : Option ExpressionAst :=
  match expr with
  | .FunctionCallExpr name _ expandFinal nameRange openParenRange closeParenRange =>
      let cur := cur.setType "function"
      let cur := cur.setMeta "name" (.str name)
      let cur := cur.setMeta "expandedFinalArgument" (.bool expandFinal)
      let cur := cur.setMeta "nameRange" (posRangeOf nameRange)
      let cur := cur.setMeta "openParenRange" (posRangeOf openParenRange)
      some (cur.setMeta "closeParenRange" (posRangeOf closeParenRange))
  | .TupleConsExpr _ _ _ => some (cur.setType "Tuple")
  | .ObjectConsExpr _ _ _ => some (cur.setType "Object")
  | .TemplateExpr _ _ => some (cur.setType "Template")
  | .TemplateJoinExpr _ => some (cur.setType "TemplateJoin")
  | .TemplateWrapExpr _ _ => some (cur.setType "TemplateWrap")
  | .ScopeTraversalExpr traversal _ =>
      let cur := cur.setType "ScopeTraversal"
      some (cur.setMeta "traversal" (.traversal (convertTraversal traversal)))
  | .RelativeTraversalExpr _ _ _ => some (cur.setType "RelativeTraversal")
  | .LiteralValueExpr v _ =>
      let cur := cur.setType "LiteralValue"
      some (cur.setMeta "type" (.ctyType v.ctyType))
  | .IndexExpr _ _ _ _ => some (cur.setType "Index")
  | .SplatExpr _ _ _ _ => some (cur.setType "Splat")
  | .ForExpr _ _ _ _ _ _ _ _ => some (cur.setType "For")
  | .ConditionalExpr _ _ _ _ => some (cur.setType "Conditional")
  | .UnaryOpExpr op val r sym =>
      let cur := cur.setType "UnaryOp"
      match operationValueType valueType op (.UnaryOpExpr op val r sym) with
      | none => none
      | some ty =>
          let cur := cur.setMeta "operator" (.str (getOperationName op))
          some (cur.setMeta "returnType" (.ctyType ty))
  | .BinaryOpExpr lhs op rhs r =>
      let cur := cur.setType "BinaryOp"
      match operationValueType valueType op (.BinaryOpExpr lhs op rhs r) with
      | none => none
      | some ty =>
          let cur := cur.setMeta "operator" (.str (getOperationName op))
          some (cur.setMeta "returnType" (.ctyType ty))
  | .OtherExpr _ _ => some cur

/-- The first statement of `Enter`, `expr := node.(hclsyntax.Expression)`: a type
assertion, which panics (`none`) when the node is not an expression. -/
def Node.asExpression : Node → Option Expression
  | .expr e => some e
  | .ChildScope _ _ => none

/-- The empty node `ExpressionAst{Parent: parent, Children: []*ExpressionAst{},
Meta: map[string]interface{}{}}`. -/
def ExpressionAst.new (parent : Option Ptr) : ExpressionAst :=
  { ExpressionAst.zero with Parent := parent }

/-- The `if w.Current != nil ... else ...` statement of `Enter`. -/
def enterLink (w : ExpressionWalker) : ExpressionWalker :=
  match w.Current with
  | some cur =>
      let w := { w with Stack := w.Stack ++ [cur] }
      let newAst := Ptr.heap w.heap.length
      let w := { w with heap := w.heap ++ [ExpressionAst.new (some cur)] }
      let w := w.update cur (fun c => { c with Children := c.Children ++ [newAst] })
      { w with Current := some newAst }
  | none =>
      let w := { w with Root := ExpressionAst.new none }
      { w with Current := some Ptr.root }

/-- Write through `w.Current`, which `enterLink` has set. -/
def ExpressionWalker.updateCurrent (w : ExpressionWalker)
    (f : ExpressionAst → ExpressionAst) : ExpressionWalker :=
  match w.Current with
  | some cur => w.update cur f
  | none => w

/-- Run a block of statements on `*w.Current` that may panic: `none` when
`w.Current` is nil or when the block panics, otherwise the walker with the node
replaced by the result. -/
def ExpressionWalker.updateCurrentM (w : ExpressionWalker)
    (f : ExpressionAst → Option ExpressionAst) : Option ExpressionWalker :=
  match w.Current with
  | none => none
  | some cur =>
      match w.deref cur with
      | none => none
      | some cell =>
          match f cell with
          | none => none
          | some cell => some (w.update cur (fun _ => cell))

/-- Source method `ExpressionWalker.Enter`. `none` is a Go panic; otherwise the
returned diagnostics (always nil) and the new state of the walker. -/
def Enter (valueType : Expression → CtyType) (node : Node) (w : ExpressionWalker) :
    Option (Diagnostics × ExpressionWalker) :=
  match node.asExpression with
  | none => none
  | some expr =>
      let w := enterLink w
      match expr.StartRange with
      | none => none
      | some startRange =>
          let w := w.updateCurrent (fun c => { c with Range := convertRangeToAst startRange })
          match w.updateCurrentM (enterSwitch valueType expr) with
          | none => none
          | some w => some ([], w)

/-- Source method `ExpressionWalker.Exit`. -/
def Exit (_node : Node) (w : ExpressionWalker) : Diagnostics × ExpressionWalker :=
  match w.Stack.getLast? with
  | some lastItem => ([], { w with Stack := w.Stack.dropLast, Current := some lastItem })
  | none => ([], w)

mutual
/-- Library function `hclsyntax.Walk(node, w)`: `Enter`, the walks of the child
nodes, `Exit`; the diagnostics are concatenated. -/
def Walk (valueType : Expression → CtyType) :
    NodeTree → ExpressionWalker → Option (Diagnostics × ExpressionWalker)
  | .mk node children, w =>
      match Enter valueType node w with
      | none => none
      | some (diags, w) =>
          match WalkChildren valueType children (diags, w) with
          | none => none
          | some (diags, w) =>
              let r := Exit node w
              some (diags ++ r.1, r.2)
/-- The callback loop of `Walk` over the child nodes. -/
def WalkChildren (valueType : Expression → CtyType) :
    List NodeTree → Diagnostics × ExpressionWalker → Option (Diagnostics × ExpressionWalker)
  | [], acc => some acc
  | child :: rest, (diags, w) =>
      match Walk valueType child w with
      | none => none
      | some (more, w) => WalkChildren valueType rest (diags ++ more, w)
end

/-! ## Reading the built tree -/

/-- Map a fallible function over a list; fails as soon as one element fails. -/
def mapOpt {α β : Type} (f : α → Option β) : List α → Option (List β)
  | [] => some []
  | a :: as =>
      match f a with
      | none => none
      | some b =>
          match mapOpt f as with
          | none => none
          | some bs => some (b :: bs)

/-- An `ExpressionAst` with its `Children` pointers followed: type, meta, range and
the child trees. -/
inductive AstTree where
  | mk (Type_ : String) (Meta : MetaMap) (Range : RangeAst) (Children : List AstTree)

/-- The tree reachable from pointer `p` through `Children`, followed to depth at
most `fuel`. -/
def ExpressionWalker.treeAt (w : ExpressionWalker) : Nat → Ptr → Option AstTree
  | 0, _ => none
  | fuel + 1, p =>
      match w.deref p with
      | none => none
      | some a =>
          match mapOpt (w.treeAt fuel) a.Children with
          | none => none
          | some cs => some (.mk a.Type_ a.Meta a.Range cs)

/-- The tree held in `walker.Root`. Every object is at depth at most
`heap.length + 1` in a tree. -/
def ExpressionWalker.rootTree (w : ExpressionWalker) : Option AstTree :=
  w.treeAt (w.heap.length + 1) Ptr.root

/-- Type tag of the root of a tree. -/
def AstTree.type : AstTree → String
  | .mk t _ _ _ => t

/-- Meta map of the root of a tree. -/
def AstTree.meta : AstTree → MetaMap
  | .mk _ m _ _ => m

/-- Range of the root of a tree. -/
def AstTree.range : AstTree → RangeAst
  | .mk _ _ r _ => r

/-- Child trees of the root of a tree. -/
def AstTree.children : AstTree → List AstTree
  | .mk _ _ _ cs => cs

mutual
/-- Number of nodes of an output tree. -/
def AstTree.size : AstTree → Nat
  | .mk _ _ _ cs => 1 + AstTree.sizeList cs
/-- Number of nodes of a list of output trees. -/
def AstTree.sizeList : List AstTree → Nat
  | [] => 0
  | c :: cs => c.size + AstTree.sizeList cs
end

mutual
/-- Number of nodes that a walk visits. -/
def NodeTree.size : NodeTree → Nat
  | .mk _ cs => 1 + NodeTree.sizeList cs
/-- Number of nodes that the walks of a list of child nodes visit. -/
def NodeTree.sizeList : List NodeTree → Nat
  | [] => 0
  | c :: cs => c.size + NodeTree.sizeList cs
end

mutual
/-- Node-for-node correspondence: the output tree has one node for each visited
node, and each output node has as many children as the visited node has child
nodes. -/
def sameShape : NodeTree → AstTree → Bool
  | .mk _ cs, .mk _ _ _ ds => sameShapeList cs ds
/-- Correspondence of two child lists: same length, pairwise `sameShape`. -/
def sameShapeList : List NodeTree → List AstTree → Bool
  | [], [] => true
  | c :: cs, d :: ds => sameShape c d && sameShapeList cs ds
  | _, _ => false
end

/-- A node that `Enter` accepts: it is an expression, its `StartRange` method
returns, and so does the call `Value(nil)` of the type switch. -/
def Node.enterable (n : Node) : Bool :=
  match n.asExpression with
  | none => false
  | some e => e.StartRange.isSome && e.valueNilReturns

mutual
/-- Every node that the walk visits is accepted by `Enter`. -/
def NodeTree.enterable : NodeTree → Bool
  | .mk n cs => n.enterable && NodeTree.allEnterable cs
/-- Every node of every listed walk is accepted by `Enter`. -/
def NodeTree.allEnterable : List NodeTree → Bool
  | [] => true
  | c :: cs => c.enterable && NodeTree.allEnterable cs
end

/-- The fields that `Enter` gives to the node created for `expr` when it returns:
the range converted from the start range, then the assignments of the type
switch. -/
def enterCell (valueType : Expression → CtyType) (parent : Option Ptr)
    (expr : Expression) (startRange : Range) : ExpressionAst :=
  enterSwitchFields valueType expr
    { ExpressionAst.new parent with Range := convertRangeToAst startRange }

mutual
/-- The direct recursive serialization: the node that `Enter` creates for the
visited node, with the serializations of the child nodes as children, in order.
`none` when some visited node is not accepted by `Enter`. -/
def serializeRec (valueType : Expression → CtyType) : NodeTree → Option AstTree
  | .mk node children =>
      match node.asExpression with
      | none => none
      | some expr =>
          match expr.StartRange with
          | none => none
          | some r =>
              match expr.valueNilReturns with
              | false => none
              | true =>
                  match serializeRecList valueType children with
                  | none => none
                  | some cs =>
                      some (.mk (enterCell valueType none expr r).Type_
                        (enterCell valueType none expr r).Meta
                        (enterCell valueType none expr r).Range cs)
/-- Direct recursive serialization of a list of child nodes. -/
def serializeRecList (valueType : Expression → CtyType) : List NodeTree → Option (List AstTree)
  | [] => some []
  | c :: cs =>
      match serializeRec valueType c with
      | none => none
      | some d =>
          match serializeRecList valueType cs with
          | none => none
          | some ds => some (d :: ds)
end

/-! ## JSON encoding -/

/-- JSON documents, the abstract syntax of the text that `encoding/json` writes. -/
inductive Json where
  | null
  | bool (b : Bool)
  | num (n : Int)
  | str (s : String)
  | arr (items : List Json)
  | obj (members : List (String × Json))

/-- The encoder of a `cty.Type` stored in a meta map (its `MarshalJSON` method),
taken as a parameter; `none` is an encoding error. -/
abbrev TypeEncoder := CtyType → Option Json

/-- Encoding of a `PosAst`, by its field tags. -/
def marshalPosAst (p : PosAst) : Json :=
  .obj [("line", .num p.Line), ("column", .num p.Column), ("byte", .num p.Byte)]

/-- Encoding of a `RangeAst`, by its field tags. -/
def marshalRangeAst (r : RangeAst) : Json :=
  .obj [("start", marshalPosAst r.Start), ("end", marshalPosAst r.End)]

/-- Encoding of an `hcl.Pos`, which has no field tags. -/
def marshalPos (p : Pos) : Json :=
  .obj [("Line", .num p.Line), ("Column", .num p.Column), ("Byte", .num p.Byte)]

/-- Encoding of an `hcl.Range`, which has no field tags. -/
def marshalRange (r : Range) : Json :=
  .obj [("Filename", .str r.Filename), ("Start", marshalPos r.Start), ("End", marshalPos r.End)]

/-- Encoding of a `TraversalAst`, by its field tags. -/
def marshalTraversalAst (t : TraversalAst) : Json :=
  .obj [("segment", .str t.Segment), ("range", marshalRange t.Range)]

/-- Encoding of a value of a meta map. The keys of a Go map are written in sorted
order; a slice that was never appended to is nil and is written as `null`. -/
def marshalMetaValue (enc : TypeEncoder) : MetaValue → Option Json
  | .str s => some (.str s)
  | .bool b => some (.bool b)
  | .posRange start stop => some (.obj [("end", marshalPosAst stop), ("start", marshalPosAst start)])
  | .traversal [] => some .null
  | .traversal (t :: ts) => some (.arr ((t :: ts).map marshalTraversalAst))
  | .ctyType t => enc t

/-- Insert a member into a list of members sorted by key. -/
def insertMember (kv : String × Json) : List (String × Json) → List (String × Json)
  | [] => [kv]
  | x :: xs => if kv.1 < x.1 then kv :: x :: xs else x :: insertMember kv xs

/-- Encoding of a meta map: the encoded values, in sorted key order. -/
def marshalMeta (enc : TypeEncoder) (m : MetaMap) : Option Json :=
  match mapOpt (fun kv => (marshalMetaValue enc kv.2).map (fun j => (kv.1, j))) m with
  | none => none
  | some members => some (.obj (members.foldr insertMember []))

/-- Encoding of an `ExpressionAst` by `encoding/json`, following the field tags:
`Parent` is tagged `json:"-"`, `Children` is followed through its pointers, `Meta` is
tagged `omitempty`, and `Range` is a struct, for which `omitempty` has no effect.
`fuel` bounds the depth to which pointers are followed; `none` is an encoding
error. -/
def ExpressionWalker.marshal (enc : TypeEncoder) (w : ExpressionWalker) :
    Nat → ExpressionAst → Option Json
  | 0, _ => none
  | fuel + 1, a =>
      match mapOpt (fun p =>
          match w.deref p with
          | none => none
          | some c => w.marshal enc fuel c) a.Children with
      | none => none
      | some children =>
          match marshalMeta enc a.Meta with
          | none => none
          | some m =>
              some (.obj ([("children", .arr children), ("type", .str a.Type_)]
                ++ (if a.Meta.isEmpty then [] else [("meta", m)])
                ++ [("range", marshalRangeAst a.Range)]))

/-- The call `json.MarshalIndent(walker.Root, "", "  ")`. -/
def ExpressionWalker.MarshalIndent (enc : TypeEncoder) (w : ExpressionWalker) : Option Json :=
  w.marshal enc (w.heap.length + 1) w.Root

/-- Source function `expressionToMarshalledAst`. The outer `none` is a Go panic.
Otherwise the result is the pair `(string(m), nil)`: the first component is the
document that `m` holds, or `none` for the empty text of a failed encoding, whose
error the source drops; the second component is the returned error, always nil. -/
def expressionToMarshalledAst (valueType : Expression → CtyType) (enc : TypeEncoder)
    (expr : Expression) : Option (Option Json × Option String) :=
  match Walk valueType expr.walkTree ExpressionWalker.fresh with
  | none => none
  | some (_, walker) => some (walker.MarshalIndent enc, none)

/-- The keys of a JSON object, in order; no keys for other documents. -/
def Json.keys : Json → List String
  | .obj members => members.map Prod.fst
  | _ => []

/-- The member of a JSON object under a key. -/
def Json.member (k : String) : Json → Option Json
  | .obj members => members.lookup k
  | _ => none

/-- Whether the encoder accepts the value of a meta map: only a `cty.Type` can be
refused. -/
def MetaValue.encodable (enc : TypeEncoder) : MetaValue → Bool
  | .ctyType t => (enc t).isSome
  | _ => true

mutual
/-- The type encoder accepts every `cty.Type` stored in a meta map of the tree. -/
def AstTree.typesEncodable (enc : TypeEncoder) : AstTree → Bool
  | .mk _ m _ cs =>
      m.all (fun kv => kv.2.encodable enc) && AstTree.typesEncodableList enc cs
/-- The type encoder accepts every `cty.Type` stored in the listed trees. -/
def AstTree.typesEncodableList (enc : TypeEncoder) : List AstTree → Bool
  | [] => true
  | c :: cs => c.typesEncodable enc && AstTree.typesEncodableList enc cs
end

mutual
/-- The encoding of a node with the nodes below it: `ExpressionWalker.marshal` on a
node whose `Children` pointers lead to the listed trees (`marshal_treeAt`). -/
def AstTree.toJson (enc : TypeEncoder) : AstTree → Option Json
  | .mk ty m rng cs =>
      match AstTree.toJsonList enc cs with
      | none => none
      | some children =>
          match marshalMeta enc m with
          | none => none
          | some mj =>
              some (.obj ([("children", .arr children), ("type", .str ty)]
                ++ (if m.isEmpty then [] else [("meta", mj)])
                ++ [("range", marshalRangeAst rng)]))
/-- The encodings of a list of child nodes. -/
def AstTree.toJsonList (enc : TypeEncoder) : List AstTree → Option (List Json)
  | [] => some []
  | c :: cs =>
      match c.toJson enc with
      | none => none
      | some j =>
          match AstTree.toJsonList enc cs with
          | none => none
          | some js => some (j :: js)
end

mutual
/-- The document has the form that an encoded node has, at every node of the tree:
it is an object with the keys `children`, `type`, `meta` and `range` in this order
and no other key, where `meta` is there exactly when the meta map of the node is
not empty; `type` holds the node's type; the object under `meta` has
a member for each key of the meta map; and `children` holds an array with one
document of this form for each child node, in order. -/
def encodesNode : AstTree → Json → Bool
  | .mk ty m _ cs, .obj members =>
      (members.map Prod.fst ==
        ["children", "type"] ++ (if m.isEmpty then [] else ["meta"]) ++ ["range"])
      && (match members.lookup "type" with
          | some (.str s) => s == ty
          | _ => false)
      && (match members.lookup "meta" with
          | some (.obj ms) => m.all (fun kv => ms.any (fun x => x.1 == kv.1))
          | some _ => false
          | none => m.isEmpty)
      && (match members.lookup "children" with
          | some (.arr js) => encodesNodes cs js
          | _ => false)
  | _, _ => false
/-- The documents have the form of the encodings of the listed nodes, one for
each. -/
def encodesNodes : List AstTree → List Json → Bool
  | [], [] => true
  | c :: cs, j :: js => encodesNode c j && encodesNodes cs js
  | _, _ => false
end

/-! ## Objects allocated by a walk -/

/-- Append pointers to a node's `Children`. -/
def appendChildren (ps : List Ptr) (a : ExpressionAst) : ExpressionAst :=
  { a with Children := a.Children ++ ps }

/-- Pointers of the nodes created for a list of child walks when the first is
allocated at heap index `base`. -/
def childPtrs : Nat → List NodeTree → List Ptr
  | _, [] => []
  | base, c :: cs => Ptr.heap base :: childPtrs (base + c.size) cs

mutual
/-- The heap objects that the walk of a subtree allocates, in allocation order,
when the subtree's node is allocated at heap index `base` under `parent`. -/
def layout (vt : Expression → CtyType) (parent : Ptr) (base : Nat) : NodeTree → List ExpressionAst
  | .mk node children =>
      match node.asExpression with
      | none => []
      | some e =>
          match e.StartRange with
          | none => []
          | some r =>
              appendChildren (childPtrs (base + 1) children) (enterCell vt (some parent) e r)
                :: layoutList vt (Ptr.heap base) (base + 1) children
/-- The heap objects that the walks of a list of child nodes allocate. -/
def layoutList (vt : Expression → CtyType) (parent : Ptr) :
    Nat → List NodeTree → List ExpressionAst
  | _, [] => []
  | base, c :: cs => layout vt parent base c ++ layoutList vt parent (base + c.size) cs
end

/-- The state of the walker after the walks of some child nodes of the node at `c`:
their pointers were appended to the node's `Children` and their objects to the heap. -/
def grow (w : ExpressionWalker) (c : Ptr) (ps : List Ptr) (cells : List ExpressionAst) :
    ExpressionWalker :=
  { Root := (w.update c (appendChildren ps)).Root
    Stack := w.Stack
    Current := w.Current
    heap := (w.update c (appendChildren ps)).heap ++ cells }

/-- The pointer refers to an object of the walker. -/
def Ptr.valid (w : ExpressionWalker) : Ptr → Prop
  | .root => True
  | .heap i => i < w.heap.length

/-- A range on line 1 of an unnamed source, from byte `a` to byte `b`. -/
def byteRange (a b : Int) : Range :=
  ⟨"", ⟨1, a + 1, a⟩, ⟨1, b + 1, b⟩⟩

/-- A template parser used in examples. For the two kinds of string in the examples
it returns expressions of the shape that the library returns: a string that is one
whole interpolation `${a}` is a `TemplateWrapExpr` around the scope traversal `a`,
and a string without template syntax is a `TemplateExpr` with one literal part. -/
def exampleParser : TemplateParser := fun src _ _ =>
  if src = "${a}" then
    (.TemplateWrapExpr (.ScopeTraversalExpr [.TraverseRoot "a" (byteRange 2 3)] (byteRange 2 3))
      (byteRange 0 4), [])
  else
    (.TemplateExpr [.LiteralValueExpr (.string src) (byteRange 0 1)] (byteRange 0 1), [])

/-- A tuple value used in examples: `[1, "${a}", true]`. -/
def exampleTuple : Value :=
  .tuple [NumberIntVal 1, .string "${a}", .bool true]

/-- An object value used in examples: `{"x": [1, "${a}", true]}`. -/
def exampleObject : Value :=
  .object [("x", exampleTuple)]

/-- The node that is current after `Enter`, when `Enter` returns. -/
def enteredNode (valueType : Expression → CtyType) (node : Node) (w : ExpressionWalker) :
    Option ExpressionAst :=
  match Enter valueType node w with
  | none => none
  | some (_, w) =>
      match w.Current with
      | none => none
      | some p => w.deref p

/-- A result type for operations used in examples. -/
def exampleValueType : Expression → CtyType := fun _ => .number

/-- The expression `[for v in l : v]` inside a template `${...}`, as the parser
builds it: a `TemplateWrapExpr` around a `ForExpr` without key and condition. -/
def exampleFor : Expression :=
  .TemplateWrapExpr
    (.ForExpr "" "v" (.ScopeTraversalExpr [.TraverseRoot "l" (byteRange 12 13)] (byteRange 12 13))
      none (.ScopeTraversalExpr [.TraverseRoot "v" (byteRange 16 17)] (byteRange 16 17)) none
      (byteRange 2 18) (byteRange 2 3))
    (byteRange 0 19)

/-- The call `foo(1, 2)` starting at byte 0: the name token is bytes 0 to 3, the
opening parenthesis bytes 3 to 4, the closing parenthesis bytes 8 to 9. -/
def exampleCall : Expression :=
  .FunctionCallExpr "foo"
    [.LiteralValueExpr (NumberIntVal 1) (byteRange 4 5),
     .LiteralValueExpr (NumberIntVal 2) (byteRange 7 8)]
    false (byteRange 0 3) (byteRange 3 4) (byteRange 8 9)

/-- The operation `1 + 2` starting at byte 0. -/
def exampleAdd : Expression :=
  .BinaryOpExpr (.LiteralValueExpr (NumberIntVal 1) (byteRange 0 1)) .OpAdd
    (.LiteralValueExpr (NumberIntVal 2) (byteRange 4 5)) (byteRange 0 5)

/-- The serialized tree of the lifted example object, given the serialized trees
`kx` of the key template and `ka` of the template of the second element. -/
def exampleObjectTree (kx ka : AstTree) : AstTree :=
  .mk "Object" [] (convertRangeToAst Range.zero)
    [kx,
     .mk "Tuple" [] (convertRangeToAst Range.zero)
       [.mk "LiteralValue" [("type", .ctyType .number)] (convertRangeToAst Range.zero) [],
        ka,
        .mk "LiteralValue" [("type", .ctyType .bool)] (convertRangeToAst Range.zero) []]]

/-- A type encoder used in examples: a primitive type is written as its name. -/
def exampleTypeEncoder : TypeEncoder
  | .string => some (.str "string")
  | .number => some (.str "number")
  | .bool => some (.str "bool")
  | .dynamic => some (.str "dynamic")
  | _ => none

/-- The tree of the lifted example object `{"x": [1, "${a}", true]}` with the
example parser: the key template, and the tuple with its three elements. -/
def exampleObjectAst : AstTree :=
  exampleObjectTree
    (.mk "Template" [] (convertRangeToAst (byteRange 0 1))
      [.mk "LiteralValue" [("type", .ctyType .string)] (convertRangeToAst (byteRange 0 1)) []])
    (.mk "TemplateWrap" [] (convertRangeToAst (byteRange 0 4))
      [.mk "ScopeTraversal"
        [("traversal", .traversal [{ Segment := "a", Range := byteRange 2 3 }])]
        (convertRangeToAst (byteRange 2 3)) []])

/-- The encoding of `exampleObjectAst` with the example type encoder. -/
def exampleObjectJson : Json :=
  .obj [("children", .arr [
      .obj [("children", .arr [
          .obj [("children", .arr []), ("type", .str "LiteralValue"),
            ("meta", .obj [("type", .str "string")]),
            ("range", marshalRangeAst (convertRangeToAst (byteRange 0 1)))]]),
        ("type", .str "Template"),
        ("range", marshalRangeAst (convertRangeToAst (byteRange 0 1)))],
      .obj [("children", .arr [
          .obj [("children", .arr []), ("type", .str "LiteralValue"),
            ("meta", .obj [("type", .str "number")]),
            ("range", marshalRangeAst (convertRangeToAst Range.zero))],
          .obj [("children", .arr [
              .obj [("children", .arr []), ("type", .str "ScopeTraversal"),
                ("meta", .obj [("traversal",
                  .arr [marshalTraversalAst { Segment := "a", Range := byteRange 2 3 }])]),
                ("range", marshalRangeAst (convertRangeToAst (byteRange 2 3)))]]),
            ("type", .str "TemplateWrap"),
            ("range", marshalRangeAst (convertRangeToAst (byteRange 0 4)))],
          .obj [("children", .arr []), ("type", .str "LiteralValue"),
            ("meta", .obj [("type", .str "bool")]),
            ("range", marshalRangeAst (convertRangeToAst Range.zero))]]),
        ("type", .str "Tuple"),
        ("range", marshalRangeAst (convertRangeToAst Range.zero))]]),
    ("type", .str "Object"),
    ("range", marshalRangeAst (convertRangeToAst Range.zero))]

/-! ## The bridge handlers -/

/-- A JavaScript value `js.Value`, as far as the handlers observe it: its `String`
method returns the string itself for a string value and a description of the form
`<T: V>` for any other value; it never panics. -/
inductive JsValue where
  | string (s : String)
  | other (shown : String)
deriving DecidableEq, Repr

/-- Method `js.Value.String`. -/
def JsValue.String : JsValue → String
  | .string s => s
  | .other shown => shown

/-- Values of the Go interface `error` that the handlers return. `errorf msg` is
`fmt.Errorf(msg)`; `diagnosticsText d` is `fmt.Errorf(d.Error())`; `diagnostics d`
is a value of type `hcl.Diagnostics` converted to `error` by `return nil, err`,
which is a non-nil interface value whatever the slice holds; `library msg` is an
error produced by a library (`convert.Bytes`, `encoding/json`). -/
inductive GoError where
  | errorf (msg : String)
  | diagnosticsText (d : Diagnostics)
  | diagnostics (d : Diagnostics)
  | library (msg : String)
deriving DecidableEq, Repr

/-- The text of a JSON document as a Go string: `none` is the empty string that
`string(m)` yields for a nil byte slice. -/
abbrev JsonText := Option Json

/-- The pair `(interface{}, error)` that a handler returns: `ret` is nil (`none`) or
a string, `err` is nil (`none`) or an error. -/
structure HandlerResult where
  ret : Option JsonText
  err : Option GoError

/-- Method `hcl.Diagnostics.HasErrors`: some diagnostic has severity `DiagError`. -/
def HasErrors (diags : Diagnostics) : Bool :=
  diags.any (fun d => d.Severity == 1)

/-- The library functions that the handlers call, taken as parameters. `E` is the
type of the `hcl.Expression` values of the JSON syntax. A nil slice of diagnostics
and an empty one are both the empty list; the libraries return nil when they have
nothing to report. `jsonMarshal` is `json.Marshal` on an `hclsyntax.Expression` and
returns `none` for an error. -/
structure Libraries (E : Type) where
  convertBytes : String → String → JsonText × Option GoError
  ParseExpression : String → String → E × Diagnostics
  IsJSONExpression : E → Bool
  Value : E → Value × Diagnostics
  ParseTemplate : TemplateParser
  jsonMarshal : Expression → Option Json
  valueType : Expression → CtyType
  encodeType : TypeEncoder

/-- The index expression `args[i]`: `none` is the panic for an index out of range. -/
def argAt (args : List JsValue) (i : Nat) : Option JsValue :=
  args[i]?

/-- The handler registered as `parse`. `none` is a Go panic. The arguments of
`convert.Bytes` are evaluated from left to right: `args[1]`, then `args[0]`. -/
def parseHandler {E : Type} (lib : Libraries E) (args : List JsValue) : Option HandlerResult :=
  if args.length = 0 then
    some ⟨none, some (.errorf "No arguments provided")⟩
  else
    match argAt args 1 with
    | none => none
    | some a1 =>
        match argAt args 0 with
        | none => none
        | some a0 =>
            let r := lib.convertBytes a1.String a0.String
            some ⟨some r.1, r.2⟩

/-- The steps that `parseExpression` and `getExpressionAst` share: parse the JSON
expression, check its kind, evaluate it with a nil context, lift the value. The
result is either the handler's early return, or the diagnostics `err` of
`ParseExpression` (nil at that point) together with the lifted expression. -/
def liftArguments {E : Type} (lib : Libraries E) (a1 a0 : JsValue) :
    HandlerResult ⊕ (Diagnostics × Expression) :=
  let r := lib.ParseExpression a1.String a0.String
  if r.2 ≠ [] then .inl ⟨none, some (.diagnostics r.2)⟩
  else if lib.IsJSONExpression r.1 = false then
    .inl ⟨none, some (.errorf "Expected JSON expression")⟩
  else
    let v := lib.Value r.1
    if HasErrors v.2 then .inl ⟨none, some (.diagnosticsText v.2)⟩
    else
      let ast := expressionForValue lib.ParseTemplate v.1
      if HasErrors ast.2 then .inl ⟨none, some (.diagnosticsText ast.2)⟩
      else .inr (r.2, ast.1)

/-- The handler registered as `parseExpression`. `none` is a Go panic. When
`json.Marshal` fails the handler executes `return nil, err`, where `err` is the
`hcl.Diagnostics` variable assigned by `ParseExpression`. -/
def parseExpressionHandler {E : Type} (lib : Libraries E) (args : List JsValue) :
    Option HandlerResult :=
  if args.length = 0 then
    some ⟨none, some (.errorf "No arguments provided")⟩
  else
    match argAt args 1 with
    | none => none
    | some a1 =>
        match argAt args 0 with
        | none => none
        | some a0 =>
            match liftArguments lib a1 a0 with
            | .inl early => some early
            | .inr (err, ast) =>
                match lib.jsonMarshal ast with
                | none => some ⟨none, some (.diagnostics err)⟩
                | some jsonValue => some ⟨some (some jsonValue), none⟩

/-- The handler registered as `getExpressionAst`. `none` is a Go panic. -/
def getExpressionAstHandler {E : Type} (lib : Libraries E) (args : List JsValue) :
    Option HandlerResult :=
  if args.length = 0 then
    some ⟨none, some (.errorf "No arguments provided")⟩
  else
    match argAt args 1 with
    | none => none
    | some a1 =>
        match argAt args 0 with
        | none => none
        | some a0 =>
            match liftArguments lib a1 a0 with
            | .inl early => some early
            | .inr (_, ast) =>
                match expressionToMarshalledAst lib.valueType lib.encodeType ast with
                | none => none
                | some (jsonValue, marshalError) =>
                    match marshalError with
                    | some e => some ⟨none, some (.library e)⟩
                    | none => some ⟨some jsonValue, none⟩

/-- The call of the JavaScript callback made by `registrationWrapper`:
`cb.Invoke(err.Error(), js.Null())` or `cb.Invoke(js.Null(), ret)`. -/
inductive CallbackCall where
  | failure (err : GoError)
  | success (ret : Option JsonText)

/-- Source function `registrationWrapper`, applied to a handler `fn` and the
arguments of the JavaScript call: the last argument is the callback, the handler
receives the others. `none` is a Go panic; otherwise the callback call and the
returned value. -/
def registrationWrapper (fn : List JsValue → Option HandlerResult) (args : List JsValue) :
    Option (CallbackCall × Option JsonText) :=
  match args.getLast? with
  | none => none
  | some _cb =>
      match fn args.dropLast with
      | none => none
      | some r =>
          match r.err with
          | some err => some (.failure err, r.ret)
          | none => some (.success r.ret, r.ret)

/-! ## Enter and Exit events -/

/-- A call that `hclsyntax.Walk` makes on the walker. -/
inductive Event where
  | enter (node : Node)
  | exit (node : Node)

/-- The calls of a list of events in order, from state `w`; `none` is a Go panic. -/
def runEvents (valueType : Expression → CtyType) : List Event → ExpressionWalker →
    Option ExpressionWalker
  | [], w => some w
  | .enter node :: rest, w =>
      match Enter valueType node w with
      | none => none
      | some (_, w) => runEvents valueType rest w
  | .exit node :: rest, w => runEvents valueType rest (Exit node w).2

mutual
/-- The calls that the walk of a tree makes: `Enter` on the node, the calls of the
walks of the child nodes, `Exit` on the node. -/
def NodeTree.events : NodeTree → List Event
  | .mk node children => Event.enter node :: (NodeTree.eventsList children ++ [Event.exit node])
/-- The calls that the walks of a list of child nodes make. -/
def NodeTree.eventsList : List NodeTree → List Event
  | [] => []
  | c :: cs => c.events ++ NodeTree.eventsList cs
end

/-- The number of nodes that are entered and not yet exited after a list of events
that starts with `d` such nodes, for a prefix of the events of one walk in which the
root is not exited: an `Exit` needs two open nodes. `none` otherwise. -/
def openNodes : Nat → List Event → Option Nat
  | d, [] => some d
  | d, .enter _ :: rest => openNodes (d + 1) rest
  | d, .exit _ :: rest => if 2 ≤ d then openNodes (d - 1) rest else none

/-- The pointers found by following `Parent` links from `p`, nearest first, at most
`fuel` of them. -/
def ExpressionWalker.parentChain (w : ExpressionWalker) : Nat → Ptr → List Ptr
  | 0, _ => []
  | fuel + 1, p =>
      match w.deref p with
      | none => []
      | some a =>
          match a.Parent with
          | none => []
          | some q => q :: w.parentChain fuel q

/-- From the node at `p`, following `Parent` links visits exactly the nodes of
`chain` in order, the last of which is the root object, whose `Parent` is nil (when
`chain` is empty, `p` itself is the root object). Every node on the way exists. -/
def UpChain (w : ExpressionWalker) : Ptr → List Ptr → Prop
  | p, [] => p = Ptr.root ∧ ∃ cell, w.deref p = some cell ∧ cell.Parent = none
  | p, q :: qs =>
      p.valid w ∧ (∃ cell, w.deref p = some cell ∧ cell.Parent = some q) ∧ UpChain w q qs

/-- The ancestor-stack invariant with `d` open nodes: a node is current, the stack
read from the top is the chain of its `Parent` links up to the root, and the stack
holds `d - 1` nodes. -/
def StackInvariant (w : ExpressionWalker) (d : Nat) : Prop :=
  ∃ cur, w.Current = some cur ∧ UpChain w cur w.Stack.reverse ∧ w.Stack.length + 1 = d

/-! ## Further examples -/

/-- A template parser used in examples that reports one error diagnostic for every
string and returns a one-part template. -/
def exampleDiagParser : TemplateParser := fun src _ _ =>
  (.TemplateExpr [.LiteralValueExpr (.string src) Range.zero] Range.zero,
    [⟨1, "Invalid template", src⟩])

/-- A tuple value used in examples: `["a", 1, "b"]`. -/
def exampleStringTuple : Value :=
  .tuple [.string "a", NumberIntVal 1, .string "b"]

/-- An object value used in examples: `{"k": "a"}`. -/
def exampleStringObject : Value :=
  .object [("k", .string "a")]

/-- The entry that `convertTraversal` appends for a traversal step, if any. -/
def traversalEntry : Traverser → Option TraversalAst
  | .TraverseRoot name srcRange => some { Segment := name, Range := srcRange }
  | .TraverseAttr name srcRange => some { Segment := name, Range := srcRange }
  | _ => none

/-- A traversal step is a root step or an attribute-access step. -/
def Traverser.isRootOrAttr : Traverser → Bool
  | .TraverseRoot _ _ => true
  | .TraverseAttr _ _ => true
  | _ => false

/-- The events `Enter [1, 2]`, `Enter 1`, `Exit 1`, `Enter 2` of the walk of the
tuple `[1, 2]`. -/
def exampleEvents : List Event :=
  [ .enter (.expr (.TupleConsExpr [.LiteralValueExpr (NumberIntVal 1) (byteRange 1 2),
      .LiteralValueExpr (NumberIntVal 2) (byteRange 4 5)] (byteRange 0 6) (byteRange 0 1))),
    .enter (.expr (.LiteralValueExpr (NumberIntVal 1) (byteRange 1 2))),
    .exit (.expr (.LiteralValueExpr (NumberIntVal 1) (byteRange 1 2))),
    .enter (.expr (.LiteralValueExpr (NumberIntVal 2) (byteRange 4 5))) ]

/-- The state of the walker after `exampleEvents`. -/
def exampleEventsState : ExpressionWalker :=
  match runEvents exampleValueType exampleEvents ExpressionWalker.fresh with
  | some w => w
  | none => ExpressionWalker.fresh

/-- The state of the walker after the walk of the call `foo(1, 2)`. -/
def exampleWalkState : ExpressionWalker :=
  match Walk exampleValueType exampleCall.walkTree ExpressionWalker.fresh with
  | some r => r.2
  | none => ExpressionWalker.fresh

/-- A literal whose value has a capsule type, which `cty.Type.MarshalJSON` refuses
to encode. -/
def exampleCapsuleLiteral : Expression :=
  .LiteralValueExpr (.null (.capsule "c")) Range.zero

/-- Library stand-ins used in examples: a JSON expression is represented by the
value it evaluates to, every source parses to the example object, and
`json.Marshal` fails. -/
def exampleLibraries : Libraries Value :=
  { convertBytes := fun _ _ => (none, some (.library "unsupported"))
    ParseExpression := fun _ _ => (exampleObject, [])
    IsJSONExpression := fun _ => true
    Value := fun v => (v, [])
    ParseTemplate := exampleParser
    jsonMarshal := fun _ => none
    valueType := exampleValueType
    encodeType := exampleTypeEncoder }

/-! ## Lemmas -/

theorem updateAt_length {α : Type} (f : α → α) : ∀ (i : Nat) (l : List α),
    (updateAt f i l).length = l.length
  | _, [] => by simp [updateAt]
  | 0, _ :: _ => rfl
  | i + 1, _ :: as => by simp [updateAt, updateAt_length f i as]

theorem updateAt_append_left {α : Type} (f : α → α) : ∀ (i : Nat) (l r : List α),
    i < l.length → updateAt f i (l ++ r) = updateAt f i l ++ r
  | _, [], _, h => by simp at h
  | 0, _ :: _, _, _ => rfl
  | i + 1, a :: as, r, h => by
      have h' : i < as.length := by simpa using h
      simp [updateAt, updateAt_append_left f i as r h']

theorem updateAt_append_right {α : Type} (f : α → α) : ∀ (l : List α) (a : α) (r : List α),
    updateAt f l.length (l ++ a :: r) = l ++ f a :: r
  | [], _, _ => rfl
  | b :: l, a, r => by simp [updateAt, updateAt_append_right f l a r]

theorem updateAt_updateAt {α : Type} (f g : α → α) : ∀ (i : Nat) (l : List α),
    updateAt g i (updateAt f i l) = updateAt (fun a => g (f a)) i l
  | _, [] => by simp [updateAt]
  | 0, _ :: _ => rfl
  | i + 1, _ :: as => by simp [updateAt, updateAt_updateAt f g i as]

theorem updateAt_id {α : Type} (f : α → α) (hf : ∀ a, f a = a) : ∀ (i : Nat) (l : List α),
    updateAt f i l = l
  | _, [] => by simp [updateAt]
  | 0, _ :: _ => by simp [updateAt, hf]
  | i + 1, _ :: as => by simp [updateAt, updateAt_id f hf i as]

theorem enterSwitchFields_children (vt : Expression → CtyType) (e : Expression) (c : ExpressionAst) :
    (enterSwitchFields vt e c).Children = c.Children := by
  cases e <;> rfl

theorem enterSwitchFields_parent (vt : Expression → CtyType) (e : Expression) (c : ExpressionAst) :
    (enterSwitchFields vt e c).Parent = c.Parent := by
  cases e <;> rfl

theorem enterSwitchFields_range (vt : Expression → CtyType) (e : Expression) (c : ExpressionAst) :
    (enterSwitchFields vt e c).Range = c.Range := by
  cases e <;> rfl

theorem enterSwitchFields_type (vt : Expression → CtyType) (e : Expression) (c d : ExpressionAst)
    (h : c.Type_ = d.Type_) : (enterSwitchFields vt e c).Type_ = (enterSwitchFields vt e d).Type_ := by
  cases e <;> simp [enterSwitchFields, ExpressionAst.setType, ExpressionAst.setMeta, h]

theorem enterSwitchFields_meta (vt : Expression → CtyType) (e : Expression) (c d : ExpressionAst)
    (h : c.Meta = d.Meta) : (enterSwitchFields vt e c).Meta = (enterSwitchFields vt e d).Meta := by
  cases e <;> simp [enterSwitchFields, ExpressionAst.setType, ExpressionAst.setMeta, h]

mutual
theorem layout_length (vt : Expression → CtyType) : ∀ (t : NodeTree) (parent : Ptr) (base : Nat),
    t.enterable = true → (layout vt parent base t).length = t.size
  | .mk node children, parent, base, h => by
      simp only [NodeTree.enterable, Bool.and_eq_true, Node.enterable] at h
      obtain ⟨h1, h2⟩ := h
      cases he : node.asExpression with
      | none => simp [he] at h1
      | some e =>
          cases hr : e.StartRange with
          | none => simp [he, hr] at h1
          | some r =>
              simp only [layout, he, hr, List.length_cons, NodeTree.size]
              rw [layoutList_length vt children (Ptr.heap base) (base + 1) h2]
              omega
theorem layoutList_length (vt : Expression → CtyType) :
    ∀ (cs : List NodeTree) (parent : Ptr) (base : Nat),
    NodeTree.allEnterable cs = true → (layoutList vt parent base cs).length = NodeTree.sizeList cs
  | [], _, _, _ => by simp [layoutList, NodeTree.sizeList]
  | c :: cs, parent, base, h => by
      simp only [NodeTree.allEnterable, Bool.and_eq_true] at h
      simp only [layoutList, List.length_append, NodeTree.sizeList]
      rw [layout_length vt c parent base h.1, layoutList_length vt cs parent (base + c.size) h.2]
end

theorem update_heap_length (w : ExpressionWalker) (c : Ptr) (f : ExpressionAst → ExpressionAst) :
    (w.update c f).heap.length = w.heap.length := by
  cases c <;> simp [ExpressionWalker.update, updateAt_length]

theorem grow_heap_length (w : ExpressionWalker) (c : Ptr) (ps : List Ptr)
    (cells : List ExpressionAst) :
    (grow w c ps cells).heap.length = w.heap.length + cells.length := by
  simp [grow, update_heap_length]

theorem grow_nil (w : ExpressionWalker) (c : Ptr) : grow w c [] [] = w := by
  cases c with
  | root => simp [grow, ExpressionWalker.update, appendChildren]
  | heap i =>
      simp only [grow, ExpressionWalker.update, List.append_nil]
      rw [updateAt_id _ (by intro a; simp [appendChildren])]

theorem grow_grow (w : ExpressionWalker) (c : Ptr) (hc : c.valid w) (ps qs : List Ptr)
    (cells more : List ExpressionAst) :
    grow (grow w c ps cells) c qs more = grow w c (ps ++ qs) (cells ++ more) := by
  cases c with
  | root => simp [grow, ExpressionWalker.update, appendChildren]
  | heap i =>
      have hi : i < (updateAt (appendChildren ps) i w.heap).length := by
        rw [updateAt_length]; exact hc
      simp only [grow, ExpressionWalker.update]
      have hf : (fun a => appendChildren qs (appendChildren ps a)) = appendChildren (ps ++ qs) := by
        funext a; simp [appendChildren]
      rw [updateAt_append_left _ _ _ _ hi, updateAt_updateAt, hf]
      simp

theorem updateAt_append_right' {α : Type} (f : α → α) (l : List α) (a : α) (r : List α) (n : Nat)
    (hn : n = l.length) : updateAt f n (l ++ a :: r) = l ++ f a :: r := by
  subst hn; exact updateAt_append_right f l a r

theorem updateAt_congr {α : Type} (f g : α → α) : ∀ (i : Nat) (l : List α),
    (∀ a, l.get? i = some a → f a = g a) → updateAt f i l = updateAt g i l
  | _, [], _ => by simp [updateAt]
  | 0, a :: as, h => by simp [updateAt, h a rfl]
  | i + 1, a :: as, h => by
      simp only [updateAt]
      rw [updateAt_congr f g i as (fun b hb => h b (by simpa using hb))]

/-- The type switch yields the described node exactly when its `Value(nil)` call
returns, and panics otherwise. -/
theorem enterSwitch_eq (vt : Expression → CtyType) (e : Expression) (c : ExpressionAst) :
    enterSwitch vt e c =
      if e.valueNilReturns = true then some (enterSwitchFields vt e c) else none := by
  cases e with
  | UnaryOpExpr op val r sym =>
      cases h : op.hasImpl <;>
        simp [enterSwitch, enterSwitchFields, Expression.valueNilReturns, operationValueType, h]
  | BinaryOpExpr lhs op rhs r =>
      cases h : op.hasImpl <;>
        simp [enterSwitch, enterSwitchFields, Expression.valueNilReturns, operationValueType, h]
  | _ => rfl

theorem updateCurrentM_some (w : ExpressionWalker) (cur : Ptr)
    (g : ExpressionAst → ExpressionAst) (hcur : w.Current = some cur) (hv : cur.valid w) :
    w.updateCurrentM (fun c => some (g c)) = some (w.updateCurrent g) := by
  cases cur with
  | root =>
      simp [ExpressionWalker.updateCurrentM, ExpressionWalker.updateCurrent, hcur,
        ExpressionWalker.deref, ExpressionWalker.update]
  | heap i =>
      have hi : i < w.heap.length := hv
      have hget : w.heap.get? i = some (w.heap.get ⟨i, hi⟩) := List.get?_eq_get hi
      simp only [ExpressionWalker.updateCurrentM, ExpressionWalker.updateCurrent, hcur,
        ExpressionWalker.deref, hget, ExpressionWalker.update]
      rw [updateAt_congr (fun _ => g (w.heap.get ⟨i, hi⟩)) g i w.heap]
      intro a ha
      rw [hget] at ha
      injection ha with ha
      rw [ha]

theorem updateCurrentM_none (w : ExpressionWalker) :
    w.updateCurrentM (fun _ => none) = none := by
  simp only [ExpressionWalker.updateCurrentM]
  cases w.Current with
  | none => rfl
  | some cur =>
      cases h : w.deref cur with
      | none => simp [h]
      | some cell => simp [h]

theorem updateCurrent_current (w : ExpressionWalker) (g : ExpressionAst → ExpressionAst) :
    (w.updateCurrent g).Current = w.Current := by
  simp only [ExpressionWalker.updateCurrent]
  cases h : w.Current with
  | none => simp [h]
  | some c => cases c <;> simp [ExpressionWalker.update, h]

theorem updateCurrent_heap_length (w : ExpressionWalker) (g : ExpressionAst → ExpressionAst) :
    (w.updateCurrent g).heap.length = w.heap.length := by
  simp only [ExpressionWalker.updateCurrent]
  cases h : w.Current with
  | none => rfl
  | some c => exact update_heap_length w c g

/-- After the linking statement of `Enter`, `w.Current` points to an object. -/
theorem enterLink_current (w : ExpressionWalker) :
    ∃ cur, (enterLink w).Current = some cur ∧ cur.valid (enterLink w) := by
  cases h : w.Current with
  | none => exact ⟨Ptr.root, by simp [enterLink, h], trivial⟩
  | some c =>
      refine ⟨Ptr.heap w.heap.length, by simp [enterLink, h], ?_⟩
      cases c <;> simp [enterLink, h, Ptr.valid, ExpressionWalker.update, updateAt_length]

/-- `Enter` on a node that it accepts: the linking statement, the range, and the
assignments of the type switch. -/
theorem Enter_returns (vt : Expression → CtyType) (node : Node) (e : Expression) (r : Range)
    (w : ExpressionWalker) (he : node.asExpression = some e) (hr : e.StartRange = some r)
    (hv : e.valueNilReturns = true) :
    Enter vt node w = some ([],
      ((enterLink w).updateCurrent (fun c => { c with Range := convertRangeToAst r })).updateCurrent
        (enterSwitchFields vt e)) := by
  obtain ⟨cur, hcur, hval⟩ := enterLink_current w
  have hf : enterSwitch vt e = fun c => some (enterSwitchFields vt e c) := by
    funext c; rw [enterSwitch_eq, if_pos hv]
  have hcur' : ((enterLink w).updateCurrent
      (fun c => { c with Range := convertRangeToAst r })).Current = some cur := by
    rw [updateCurrent_current, hcur]
  have hval' : cur.valid ((enterLink w).updateCurrent
      (fun c => { c with Range := convertRangeToAst r })) := by
    cases cur with
    | root => trivial
    | heap i =>
        have hi : i < (enterLink w).heap.length := hval
        simp only [Ptr.valid, updateCurrent_heap_length]
        exact hi
  simp only [Enter, he, hr, hf, updateCurrentM_some _ cur _ hcur' hval']

/-- `Enter` panics on an operation node whose `Value(nil)` call panics. -/
theorem Enter_value_panics (vt : Expression → CtyType) (node : Node) (e : Expression)
    (w : ExpressionWalker) (he : node.asExpression = some e)
    (hv : e.valueNilReturns = false) : Enter vt node w = none := by
  have hf : enterSwitch vt e = fun _ => none := by
    funext c; rw [enterSwitch_eq, hv]; rfl
  simp only [Enter, he, hf, updateCurrentM_none]
  cases e.StartRange <;> rfl

/-- `Enter` on an accepted node below the current node `c`. -/
theorem Enter_child (vt : Expression → CtyType) (node : Node) (e : Expression) (r : Range)
    (w : ExpressionWalker) (c : Ptr) (hcur : w.Current = some c) (hc : c.valid w)
    (he : node.asExpression = some e) (hr : e.StartRange = some r)
    (hv : e.valueNilReturns = true) :
    Enter vt node w = some ([],
      { Root := (w.update c (appendChildren [Ptr.heap w.heap.length])).Root
        Stack := w.Stack ++ [c]
        Current := some (Ptr.heap w.heap.length)
        heap := (w.update c (appendChildren [Ptr.heap w.heap.length])).heap
          ++ [enterCell vt (some c) e r] }) := by
  rw [Enter_returns vt node e r w he hr hv]
  cases c with
  | root =>
      simp only [enterLink, hcur, ExpressionWalker.update,
        ExpressionWalker.updateCurrent]
      rw [updateAt_append_right' _ w.heap _ [] _ rfl, updateAt_append_right' _ w.heap _ [] _ rfl]
      rfl
  | heap i =>
      have hi : i < w.heap.length := hc
      simp only [enterLink, hcur, ExpressionWalker.update,
        ExpressionWalker.updateCurrent]
      rw [updateAt_append_left _ _ _ _ hi]
      rw [updateAt_append_right' _ _ _ [] _ (updateAt_length _ _ _).symm,
        updateAt_append_right' _ _ _ [] _ (updateAt_length _ _ _).symm]
      rfl

theorem getLast?_append_singleton {α : Type} (l : List α) (a : α) :
    (l ++ [a]).getLast? = some a := by
  simp

mutual
/-- The walk of an accepted subtree below the current node `c` allocates the
subtree's objects at the end of the heap, links the subtree's node as the last child
of `c`, and restores `Stack` and `Current`. -/
theorem Walk_child (vt : Expression → CtyType) :
    ∀ (t : NodeTree), t.enterable = true → ∀ (w : ExpressionWalker) (c : Ptr),
      w.Current = some c → c.valid w →
      Walk vt t w = some ([],
        grow w c [Ptr.heap w.heap.length] (layout vt c w.heap.length t))
  | .mk node children, h, w, c, hcur, hc => by
      simp only [NodeTree.enterable, Bool.and_eq_true, Node.enterable] at h
      obtain ⟨h1, h2⟩ := h
      cases he : node.asExpression with
      | none => simp [he] at h1
      | some e =>
          cases hr : e.StartRange with
          | none => simp [he, hr] at h1
          | some r =>
              have hv : e.valueNilReturns = true := by simpa [he, hr] using h1
              have hE := Enter_child vt node e r w c hcur hc he hr hv
              have hk := WalkChildren_spec vt children h2
                { Root := (w.update c (appendChildren [Ptr.heap w.heap.length])).Root
                  Stack := w.Stack ++ [c]
                  Current := some (Ptr.heap w.heap.length)
                  heap := (w.update c (appendChildren [Ptr.heap w.heap.length])).heap
                    ++ [enterCell vt (some c) e r] }
                (Ptr.heap w.heap.length) [] rfl
                (by simp [Ptr.valid, update_heap_length])
              simp only [List.length_append, update_heap_length, List.length_singleton] at hk
              obtain ⟨R', H', hR, hH, hlen⟩ : ∃ R' H',
                  (w.update c (appendChildren [Ptr.heap w.heap.length])).Root = R' ∧
                  (w.update c (appendChildren [Ptr.heap w.heap.length])).heap = H' ∧
                  w.heap.length = H'.length :=
                ⟨_, _, rfl, rfl, (update_heap_length _ _ _).symm⟩
              simp only [hR, hH] at hE hk
              simp only [Walk, hE, hk, Exit, grow, hR, hH, getLast?_append_singleton,
                List.dropLast_concat, layout, he, hr, hcur, List.append_nil]
              simp only [ExpressionWalker.update]
              rw [updateAt_append_right' _ H' _ [] _ hlen]
              simp
theorem WalkChildren_spec (vt : Expression → CtyType) :
    ∀ (cs : List NodeTree), NodeTree.allEnterable cs = true →
      ∀ (w : ExpressionWalker) (c : Ptr) (d : Diagnostics),
      w.Current = some c → c.valid w →
      WalkChildren vt cs (d, w) = some (d,
        grow w c (childPtrs w.heap.length cs) (layoutList vt c w.heap.length cs))
  | [], _, w, c, d, _, _ => by
      simp [WalkChildren, childPtrs, layoutList, grow_nil]
  | t :: cs, h, w, c, d, hcur, hc => by
      simp only [NodeTree.allEnterable, Bool.and_eq_true] at h
      have h1 := Walk_child vt t h.1 w c hcur hc
      have hv : c.valid (grow w c [Ptr.heap w.heap.length] (layout vt c w.heap.length t)) := by
        cases c with
        | root => trivial
        | heap i =>
            have hi : i < w.heap.length := hc
            simp only [Ptr.valid, grow_heap_length]
            omega
      have h2 := WalkChildren_spec vt cs h.2
        (grow w c [Ptr.heap w.heap.length] (layout vt c w.heap.length t)) c d hcur hv
      simp only [grow_heap_length, layout_length vt t c w.heap.length h.1] at h2
      simp only [WalkChildren, h1, h2, grow_grow w c hc, grow_heap_length,
        layout_length vt t c w.heap.length h.1, childPtrs, layoutList, List.append_nil,
        List.singleton_append]
end

/-- The walk of an accepted tree with a fresh walker: the root object gets the
fields of the tree's node and the pointers of its children; the heap holds the
objects of the children's subtrees; the stack is empty and `Current` is the root. -/
theorem Walk_fresh (vt : Expression → CtyType) (node : Node) (children : List NodeTree)
    (e : Expression) (r : Range) (he : node.asExpression = some e) (hr : e.StartRange = some r)
    (hv : e.valueNilReturns = true) (h : NodeTree.allEnterable children = true) :
    Walk vt (.mk node children) ExpressionWalker.fresh = some ([],
      { Root := appendChildren (childPtrs 0 children) (enterCell vt none e r)
        Stack := []
        Current := some Ptr.root
        heap := layoutList vt Ptr.root 0 children }) := by
  have hk := WalkChildren_spec vt children h
    { Root := enterCell vt none e r, Stack := [], Current := some Ptr.root, heap := [] }
    Ptr.root [] rfl trivial
  have hE : Enter vt node ExpressionWalker.fresh = some ([],
      { Root := enterCell vt none e r, Stack := [], Current := some Ptr.root, heap := [] }) := by
    rw [Enter_returns vt node e r _ he hr hv]
    simp [enterLink, ExpressionWalker.fresh, ExpressionWalker.updateCurrent,
      ExpressionWalker.update, enterCell]
  simp only [Walk, hE, hk, Exit, grow, ExpressionWalker.update, List.length_nil]
  simp

theorem get?_append_cons {α : Type} (H : List α) (a : α) (R : List α) (n : Nat)
    (hn : n = H.length) : (H ++ a :: R).get? n = some a := by
  subst hn
  induction H with
  | nil => rfl
  | cons b H ih => simpa using ih

theorem enterCell_children (vt : Expression → CtyType) (parent : Option Ptr) (e : Expression)
    (r : Range) : (enterCell vt parent e r).Children = [] := by
  simp [enterCell, enterSwitchFields_children, ExpressionAst.new, ExpressionAst.zero]

theorem enterCell_type (vt : Expression → CtyType) (parent : Option Ptr) (e : Expression)
    (r : Range) : (enterCell vt parent e r).Type_ = (enterCell vt none e r).Type_ :=
  enterSwitchFields_type vt e _ _ rfl

theorem enterCell_meta (vt : Expression → CtyType) (parent : Option Ptr) (e : Expression)
    (r : Range) : (enterCell vt parent e r).Meta = (enterCell vt none e r).Meta :=
  enterSwitchFields_meta vt e _ _ rfl

theorem enterCell_range (vt : Expression → CtyType) (parent : Option Ptr) (e : Expression)
    (r : Range) : (enterCell vt parent e r).Range = convertRangeToAst r := by
  simp [enterCell, enterSwitchFields_range]

theorem NodeTree_size_pos : ∀ (t : NodeTree), 0 < t.size
  | .mk _ _ => by simp [NodeTree.size]

mutual
/-- Following the pointers of a subtree's objects yields the direct recursive
serialization of the subtree. -/
theorem treeAt_layout (vt : Expression → CtyType) :
    ∀ (t : NodeTree), t.enterable = true →
      ∀ (w : ExpressionWalker) (H R : List ExpressionAst) (parent : Ptr) (n fuel : Nat),
      n = H.length → w.heap = H ++ layout vt parent n t ++ R → t.size ≤ fuel →
      w.treeAt fuel (Ptr.heap n) = serializeRec vt t
  | .mk node children, h, w, H, R, parent, n, fuel, hn, hw, hf => by
      simp only [NodeTree.enterable, Bool.and_eq_true, Node.enterable] at h
      obtain ⟨h1, h2⟩ := h
      cases he : node.asExpression with
      | none => simp [he] at h1
      | some e =>
          cases hr : e.StartRange with
          | none => simp [he, hr] at h1
          | some r =>
              cases fuel with
              | zero => simp [NodeTree.size] at hf
              | succ f =>
                  simp only [layout, he, hr, List.cons_append, List.append_assoc] at hw
                  have hget : w.heap.get? n = some
                      (appendChildren (childPtrs (n + 1) children)
                        (enterCell vt (some parent) e r)) := by
                    rw [hw]; exact get?_append_cons _ _ _ _ hn
                  have hk := treeAtList_layout vt children h2 w
                    (H ++ [appendChildren (childPtrs (n + 1) children)
                        (enterCell vt (some parent) e r)]) R (Ptr.heap n) (n + 1) f
                    (by simp [hn]) (by simp [hw])
                    (by simp only [NodeTree.size] at hf; omega)
                  have hv : e.valueNilReturns = true := by simpa [he, hr] using h1
                  simp only [ExpressionWalker.treeAt, ExpressionWalker.deref, hget, appendChildren,
                    enterCell_children, List.nil_append, hk, serializeRec, he, hr, hv,
                    enterCell_type vt (some parent), enterCell_meta vt (some parent),
                    enterCell_range]
theorem treeAtList_layout (vt : Expression → CtyType) :
    ∀ (cs : List NodeTree), NodeTree.allEnterable cs = true →
      ∀ (w : ExpressionWalker) (H R : List ExpressionAst) (parent : Ptr) (n fuel : Nat),
      n = H.length → w.heap = H ++ layoutList vt parent n cs ++ R →
      NodeTree.sizeList cs ≤ fuel →
      mapOpt (w.treeAt fuel) (childPtrs n cs) = serializeRecList vt cs
  | [], _, _, _, _, _, _, _, _, _, _ => by
      simp [childPtrs, mapOpt, serializeRecList]
  | t :: cs, h, w, H, R, parent, n, fuel, hn, hw, hf => by
      simp only [NodeTree.allEnterable, Bool.and_eq_true] at h
      simp only [NodeTree.sizeList] at hf
      simp only [layoutList, List.append_assoc] at hw
      have h1 := treeAt_layout vt t h.1 w H
        (layoutList vt parent (n + t.size) cs ++ R) parent n fuel hn
        (by simp [hw]) (by omega)
      have h2 := treeAtList_layout vt cs h.2 w (H ++ layout vt parent n t) R parent
        (n + t.size) fuel (by simp [hn, layout_length vt t parent H.length h.1])
        (by simp [hw]) (by omega)
      simp only [childPtrs, mapOpt, h1, h2, serializeRecList]
      cases serializeRec vt t <;> cases serializeRecList vt cs <;> rfl
end

/-- The walk of an accepted tree with a fresh walker returns, and leaves in
`walker.Root` the direct recursive serialization of the tree. -/
theorem Walk_fresh_rootTree (vt : Expression → CtyType) (t : NodeTree)
    (h : t.enterable = true) :
    ∃ w, Walk vt t ExpressionWalker.fresh = some ([], w) ∧ w.Stack = [] ∧
      w.Current = some Ptr.root ∧ w.rootTree = serializeRec vt t := by
  cases t with
  | mk node children =>
      simp only [NodeTree.enterable, Bool.and_eq_true, Node.enterable] at h
      obtain ⟨h1, h2⟩ := h
      cases he : node.asExpression with
      | none => simp [he] at h1
      | some e =>
          cases hr : e.StartRange with
          | none => simp [he, hr] at h1
          | some r =>
              have hv : e.valueNilReturns = true := by simpa [he, hr] using h1
              refine ⟨_, Walk_fresh vt node children e r he hr hv h2, rfl, rfl, ?_⟩
              have hk := treeAtList_layout vt children h2
                { Root := appendChildren (childPtrs 0 children) (enterCell vt none e r)
                  Stack := []
                  Current := some Ptr.root
                  heap := layoutList vt Ptr.root 0 children }
                [] [] Ptr.root 0 (layoutList vt Ptr.root 0 children).length rfl (by simp)
                (by rw [layoutList_length vt children Ptr.root 0 h2])
              simp only [appendChildren, enterCell_children, List.nil_append] at hk
              simp only [ExpressionWalker.rootTree, ExpressionWalker.treeAt,
                ExpressionWalker.deref, appendChildren, enterCell_children, List.nil_append, hk,
                serializeRec, he, hr, hv]

mutual
theorem serializeRec_shape (vt : Expression → CtyType) :
    ∀ (t : NodeTree) (a : AstTree), serializeRec vt t = some a →
      sameShape t a = true ∧ a.size = t.size
  | .mk node children, a, h => by
      simp only [serializeRec] at h
      cases he : node.asExpression with
      | none => simp [he] at h
      | some e =>
          cases hr : e.StartRange with
          | none => simp [he, hr] at h
          | some r =>
              cases hv : e.valueNilReturns with
              | false => simp [he, hr, hv] at h
              | true =>
                  cases hc : serializeRecList vt children with
                  | none => simp [he, hr, hv, hc] at h
                  | some cs =>
                      simp only [he, hr, hv, hc, Option.some.injEq] at h
                      subst h
                      have ih := serializeRecList_shape vt children cs hc
                      simp [sameShape, AstTree.size, NodeTree.size, ih.1, ih.2]
theorem serializeRecList_shape (vt : Expression → CtyType) :
    ∀ (ts : List NodeTree) (as : List AstTree), serializeRecList vt ts = some as →
      sameShapeList ts as = true ∧ AstTree.sizeList as = NodeTree.sizeList ts
  | [], as, h => by
      simp only [serializeRecList, Option.some.injEq] at h
      subst h
      simp [sameShapeList, AstTree.sizeList, NodeTree.sizeList]
  | t :: ts, as, h => by
      simp only [serializeRecList] at h
      cases h1 : serializeRec vt t with
      | none => simp [h1] at h
      | some d =>
          cases h2 : serializeRecList vt ts with
          | none => simp [h1, h2] at h
          | some ds =>
              simp only [h1, h2, Option.some.injEq] at h
              subst h
              have i1 := serializeRec_shape vt t d h1
              have i2 := serializeRecList_shape vt ts ds h2
              simp [sameShapeList, AstTree.sizeList, NodeTree.sizeList, i1.1, i1.2, i2.1, i2.2]
end

mutual
theorem serializeRec_isSome (vt : Expression → CtyType) :
    ∀ (t : NodeTree), t.enterable = true → (serializeRec vt t).isSome = true
  | .mk node children, h => by
      simp only [NodeTree.enterable, Bool.and_eq_true, Node.enterable] at h
      obtain ⟨h1, h2⟩ := h
      cases he : node.asExpression with
      | none => simp [he] at h1
      | some e =>
          cases hr : e.StartRange with
          | none => simp [he, hr] at h1
          | some r =>
              have hv : e.valueNilReturns = true := by simpa [he, hr] using h1
              have ih := serializeRecList_isSome vt children h2
              cases hc : serializeRecList vt children with
              | none => simp [hc] at ih
              | some cs => simp [serializeRec, he, hr, hv, hc]
theorem serializeRecList_isSome (vt : Expression → CtyType) :
    ∀ (ts : List NodeTree), NodeTree.allEnterable ts = true →
      (serializeRecList vt ts).isSome = true
  | [], _ => by simp [serializeRecList]
  | t :: ts, h => by
      simp only [NodeTree.allEnterable, Bool.and_eq_true] at h
      have i1 := serializeRec_isSome vt t h.1
      have i2 := serializeRecList_isSome vt ts h.2
      cases h1 : serializeRec vt t with
      | none => simp [h1] at i1
      | some d =>
          cases h2 : serializeRecList vt ts with
          | none => simp [h2] at i2
          | some ds => simp [serializeRecList, h1, h2]
end

/-- The call of `expressionForValue` on the key that an object's iterator hands out,
the string value of the attribute name, is the string case. -/
theorem expressionForValue_key (p : TemplateParser) (name : String) :
    expressionForValue p (.string name) = templateForString p name :=
  rfl

theorem tupleLoop_eq (p : TemplateParser) : ∀ (elems : List Value)
    (acc : List Expression × Diagnostics),
    tupleLoop p elems acc =
      (acc.1 ++ elems.map (fun v => (expressionForValue p v).1),
       acc.2 ++ (elems.map (fun v => (expressionForValue p v).2)).flatten)
  | [], acc => by simp [tupleLoop]
  | v :: vs, (exprs, diags) => by
      simp [tupleLoop, tupleLoop_eq p vs]

theorem objectLoop_eq (p : TemplateParser) : ∀ (attrs : List (String × Value))
    (acc : List (Expression × Expression) × Diagnostics),
    objectLoop p attrs acc =
      (acc.1 ++ attrs.map (fun kv =>
          ((expressionForValue p (.string kv.1)).1, (expressionForValue p kv.2).1)),
       acc.2 ++ (attrs.map (fun kv =>
          (expressionForValue p (.string kv.1)).2 ++ (expressionForValue p kv.2).2)).flatten)
  | [], acc => by simp [objectLoop]
  | (k, v) :: kvs, (items, diags) => by
      simp [objectLoop, objectLoop_eq p kvs, expressionForValue]

theorem indexKeys_map_snd : ∀ (i : Nat) (elems : List Value),
    (indexKeys i elems).map Prod.snd = elems
  | _, [] => rfl
  | i, v :: vs => by simp [indexKeys, indexKeys_map_snd (i + 1) vs]

theorem stringKeys_map (f : Value × Value → α) : ∀ (attrs : List (String × Value)),
    (stringKeys attrs).map f = attrs.map (fun kv => f (Value.string kv.1, kv.2))
  | [] => rfl
  | (k, v) :: kvs => by simp [stringKeys, stringKeys_map f kvs]

theorem Value_size_pos : ∀ (v : Value), 0 < v.size
  | .null _ => by simp [Value.size]
  | .string _ => by simp [Value.size]
  | .number _ => by simp [Value.size]
  | .bool _ => by simp [Value.size]
  | .tuple _ => by simp [Value.size]
  | .object _ => by simp [Value.size]
  | .list _ _ => by simp [Value.size]
  | .map _ _ => by simp [Value.size]

mutual
theorem fuel_value (p : TemplateParser) : ∀ (v : Value) (fuel : Nat), v.size ≤ fuel →
    expressionForValueFuel p fuel v = some (expressionForValue p v)
  | .null ty, fuel, h => by
      cases fuel with
      | zero => simp [Value.size] at h
      | succ f => simp [expressionForValueFuel, Value.IsNull, expressionForValue]
  | .string s, fuel, h => by
      cases fuel with
      | zero => simp [Value.size] at h
      | succ f =>
          simp [expressionForValueFuel, Value.IsNull, Value.ctyType, CtyType.IsString,
            Value.AsString, expressionForValue, templateForString]
  | .number n, fuel, h => by
      cases fuel with
      | zero => simp [Value.size] at h
      | succ f =>
          simp [expressionForValueFuel, Value.IsNull, Value.ctyType, CtyType.IsString,
            CtyType.IsTupleType, CtyType.IsObjectType, expressionForValue]
  | .bool b, fuel, h => by
      cases fuel with
      | zero => simp [Value.size] at h
      | succ f =>
          simp [expressionForValueFuel, Value.IsNull, Value.ctyType, CtyType.IsString,
            CtyType.IsTupleType, CtyType.IsObjectType, expressionForValue]
  | .list ety elems, fuel, h => by
      cases fuel with
      | zero => simp [Value.size] at h
      | succ f =>
          simp [expressionForValueFuel, Value.IsNull, Value.ctyType, CtyType.IsString,
            CtyType.IsTupleType, CtyType.IsObjectType, expressionForValue]
  | .map ety elems, fuel, h => by
      cases fuel with
      | zero => simp [Value.size] at h
      | succ f =>
          simp [expressionForValueFuel, Value.IsNull, Value.ctyType, CtyType.IsString,
            CtyType.IsTupleType, CtyType.IsObjectType, expressionForValue]
  | .tuple elems, fuel, h => by
      cases fuel with
      | zero => simp [Value.size] at h
      | succ f =>
          have hk := fuel_tuple p elems f 0 ([], []) (by simp only [Value.size] at h; omega)
          simp [expressionForValueFuel, Value.IsNull, Value.ctyType, CtyType.IsString,
            CtyType.IsTupleType, Value.ElementIterator, hk, expressionForValue]
  | .object attrs, fuel, h => by
      cases fuel with
      | zero => simp [Value.size] at h
      | succ f =>
          have hk := fuel_object p attrs f ([], []) (by simp only [Value.size] at h; omega)
          simp [expressionForValueFuel, Value.IsNull, Value.ctyType, CtyType.IsString,
            CtyType.IsTupleType, CtyType.IsObjectType, Value.ElementIterator, hk,
            expressionForValue]
theorem fuel_tuple (p : TemplateParser) : ∀ (elems : List Value) (fuel i : Nat)
    (acc : List Expression × Diagnostics), Value.sizeList elems ≤ fuel →
    tupleLoopWith (expressionForValueFuel p fuel) (indexKeys i elems) acc =
      some (tupleLoop p elems acc)
  | [], _, _, acc, _ => by simp [indexKeys, tupleLoopWith, tupleLoop]
  | v :: vs, fuel, i, (exprs, diags), h => by
      simp only [Value.sizeList] at h
      have h1 := fuel_value p v fuel (by omega)
      have h2 := fuel_tuple p vs fuel (i + 1)
        (exprs ++ [(expressionForValue p v).1], diags ++ (expressionForValue p v).2) (by omega)
      simp [indexKeys, tupleLoopWith, tupleLoop, h1, h2]
theorem fuel_object (p : TemplateParser) : ∀ (attrs : List (String × Value)) (fuel : Nat)
    (acc : List (Expression × Expression) × Diagnostics), Value.sizeAttrs attrs ≤ fuel →
    objectLoopWith (expressionForValueFuel p fuel) (stringKeys attrs) acc =
      some (objectLoop p attrs acc)
  | [], _, acc, _ => by simp [stringKeys, objectLoopWith, objectLoop]
  | (k, v) :: kvs, fuel, (items, diags), h => by
      simp only [Value.sizeAttrs] at h
      have h0 : expressionForValueFuel p fuel (.string k) = some (templateForString p k) := by
        cases fuel with
        | zero => omega
        | succ f =>
            simp [expressionForValueFuel, Value.IsNull, Value.ctyType, CtyType.IsString,
              Value.AsString, templateForString]
      have h1 := fuel_value p v fuel (by omega)
      have h2 := fuel_object p kvs fuel
        (items ++ [((templateForString p k).1, (expressionForValue p v).1)],
          (diags ++ (templateForString p k).2) ++ (expressionForValue p v).2) (by omega)
      simp only [List.append_assoc] at h2
      simp [stringKeys, objectLoopWith, objectLoop, h0, h1, h2]
end

theorem stringKeys_length : ∀ (attrs : List (String × Value)),
    (stringKeys attrs).length = attrs.length
  | [] => rfl
  | (k, v) :: kvs => by simp [stringKeys, stringKeys_length kvs]

theorem get?_updateAt {α : Type} (f : α → α) : ∀ (i j : Nat) (l : List α),
    (updateAt f i l).get? j = if i = j then (l.get? j).map f else l.get? j
  | _, _, [] => by simp [updateAt]
  | 0, 0, _ :: _ => by simp [updateAt]
  | 0, j + 1, _ :: _ => by simp [updateAt]
  | i + 1, 0, _ :: _ => by simp [updateAt]
  | i + 1, j + 1, _ :: as => by
      have h := get?_updateAt f i j as
      simp only [List.get?_eq_getElem?] at h
      simp [updateAt, h]

/-- `Enter` on an accepted node returns in every state of the walker, and the node
that is then current has the range, type and meta that `enterCell` describes. -/
theorem Enter_entered (vt : Expression → CtyType) (node : Node) (e : Expression) (r : Range)
    (he : node.asExpression = some e) (hr : e.StartRange = some r)
    (hv : e.valueNilReturns = true) (w : ExpressionWalker) :
    ∃ cell, enteredNode vt node w = some cell ∧
      cell.Type_ = (enterCell vt none e r).Type_ ∧
      cell.Meta = (enterCell vt none e r).Meta ∧
      cell.Range = convertRangeToAst r := by
  cases hcur : w.Current with
  | none =>
      refine ⟨enterCell vt none e r, ?_, rfl, rfl, enterCell_range vt none e r⟩
      simp [enteredNode, Enter_returns vt node e r w he hr hv, enterLink, hcur,
        ExpressionWalker.updateCurrent, ExpressionWalker.update, ExpressionWalker.deref, enterCell]
  | some c =>
      cases c with
      | root =>
          refine ⟨enterCell vt (some Ptr.root) e r, ?_, enterCell_type vt _ e r,
            enterCell_meta vt _ e r, enterCell_range vt _ e r⟩
          simp only [enteredNode, Enter_returns vt node e r w he hr hv, enterLink, hcur,
            ExpressionWalker.updateCurrent, ExpressionWalker.update, ExpressionWalker.deref]
          rw [updateAt_append_right' _ w.heap _ [] _ rfl,
            updateAt_append_right' _ w.heap _ [] _ rfl]
          exact get?_append_cons _ _ _ _ rfl
      | heap i =>
          simp only [enteredNode, Enter_returns vt node e r w he hr hv, enterLink, hcur,
            ExpressionWalker.updateCurrent, ExpressionWalker.update, ExpressionWalker.deref]
          rw [updateAt_updateAt, get?_updateAt, get?_updateAt]
          simp only [if_true, get?_append_cons w.heap _ [] _ rfl, Option.map_some']
          by_cases hi : i = w.heap.length
          · simp only [hi, if_true, Option.map_some']
            exact ⟨_, rfl, enterSwitchFields_type vt e _ _ rfl, enterSwitchFields_meta vt e _ _ rfl,
              by simp [enterSwitchFields_range]⟩
          · simp only [hi, if_false]
            exact ⟨_, rfl, enterSwitchFields_type vt e _ _ rfl, enterSwitchFields_meta vt e _ _ rfl,
              by simp [enterSwitchFields_range]⟩

theorem getOperationName_of_mem (op : Operation) (name : String)
    (h : (op, name) ∈ operationNamesLookup) : getOperationName op = name := by
  simp only [operationNamesLookup, List.mem_cons, Prod.mk.injEq, List.mem_nil_iff,
    or_false] at h
  rcases h with h | h | h | h | h | h | h | h | h | h | h | h | h | h | h <;>
    (obtain ⟨h1, h2⟩ := h; subst h1; subst h2; rfl)

theorem hasImpl_of_mem (op : Operation) (name : String)
    (h : (op, name) ∈ operationNamesLookup) : op.hasImpl = true := by
  simp only [operationNamesLookup, List.mem_cons, Prod.mk.injEq, List.mem_nil_iff,
    or_false] at h
  rcases h with h | h | h | h | h | h | h | h | h | h | h | h | h | h | h <;>
    (obtain ⟨h1, _⟩ := h; subst h1; rfl)

theorem enterCell_unary_operator (vt : Expression → CtyType) (op : Operation)
    (val : Expression) (sr sym r : Range) :
    (enterCell vt none (.UnaryOpExpr op val sr sym) r).Type_ = "UnaryOp" ∧
    (enterCell vt none (.UnaryOpExpr op val sr sym) r).Meta.lookup "operator"
      = some (.str (getOperationName op)) := by
  constructor
  · rfl
  · simp [enterCell, enterSwitchFields, ExpressionAst.setMeta, ExpressionAst.setType, metaSet,
      ExpressionAst.new, ExpressionAst.zero, List.lookup]

theorem enterCell_binary_operator (vt : Expression → CtyType) (op : Operation)
    (lhs rhs : Expression) (sr r : Range) :
    (enterCell vt none (.BinaryOpExpr lhs op rhs sr) r).Type_ = "BinaryOp" ∧
    (enterCell vt none (.BinaryOpExpr lhs op rhs sr) r).Meta.lookup "operator"
      = some (.str (getOperationName op)) := by
  constructor
  · rfl
  · simp [enterCell, enterSwitchFields, ExpressionAst.setMeta, ExpressionAst.setType, metaSet,
      ExpressionAst.new, ExpressionAst.zero, List.lookup]

theorem Enter_not_enterable (vt : Expression → CtyType) (node : Node) (w : ExpressionWalker)
    (h : node.enterable = false) : Enter vt node w = none := by
  simp only [Node.enterable] at h
  cases he : node.asExpression with
  | none => simp [Enter, he]
  | some e =>
      cases hr : e.StartRange with
      | none => simp [Enter, he, hr]
      | some r =>
          have hv : e.valueNilReturns = false := by simpa [he, hr] using h
          exact Enter_value_panics vt node e w he hv

mutual
/-- A walk that visits a node which `Enter` does not accept panics. -/
theorem Walk_not_enterable (vt : Expression → CtyType) :
    ∀ (t : NodeTree), t.enterable = false → ∀ (w : ExpressionWalker), Walk vt t w = none
  | .mk node children, h, w => by
      simp only [NodeTree.enterable, Bool.and_eq_false_iff] at h
      cases hn : node.enterable with
      | false => simp [Walk, Enter_not_enterable vt node w hn]
      | true =>
          have hc : NodeTree.allEnterable children = false := by
            rcases h with h | h
            · simp [hn] at h
            · exact h
          simp only [Walk]
          cases hE : Enter vt node w with
          | none => rfl
          | some r =>
              obtain ⟨d, w1⟩ := r
              simp [WalkChildren_not_enterable vt children hc (d, w1)]
theorem WalkChildren_not_enterable (vt : Expression → CtyType) :
    ∀ (cs : List NodeTree), NodeTree.allEnterable cs = false →
      ∀ (acc : Diagnostics × ExpressionWalker), WalkChildren vt cs acc = none
  | [], h, _ => by simp [NodeTree.allEnterable] at h
  | t :: cs, h, (d, w) => by
      simp only [NodeTree.allEnterable, Bool.and_eq_false_iff] at h
      simp only [WalkChildren]
      cases ht : t.enterable with
      | false => simp [Walk_not_enterable vt t ht w]
      | true =>
          have hc : NodeTree.allEnterable cs = false := by
            rcases h with h | h
            · simp [ht] at h
            · exact h
          cases hW : Walk vt t w with
          | none => rfl
          | some r =>
              obtain ⟨d1, w1⟩ := r
              simp [WalkChildren_not_enterable vt cs hc (d ++ d1, w1)]
end

/-- A walk with a fresh walker returns exactly when `Enter` accepts every node that
it visits. -/
theorem Walk_fresh_isSome (vt : Expression → CtyType) (t : NodeTree) :
    (Walk vt t ExpressionWalker.fresh).isSome = t.enterable := by
  cases h : t.enterable with
  | false => simp [Walk_not_enterable vt t h]
  | true =>
      obtain ⟨w, hw, _⟩ := Walk_fresh_rootTree vt t h
      simp [hw]

mutual
theorem enterable_of_serializeRec (vt : Expression → CtyType) :
    ∀ (t : NodeTree) (a : AstTree), serializeRec vt t = some a → t.enterable = true
  | .mk node children, a, h => by
      simp only [serializeRec] at h
      cases he : node.asExpression with
      | none => simp [he] at h
      | some e =>
          cases hr : e.StartRange with
          | none => simp [he, hr] at h
          | some r =>
              cases hv : e.valueNilReturns with
              | false => simp [he, hr, hv] at h
              | true =>
                  cases hc : serializeRecList vt children with
                  | none => simp [he, hr, hv, hc] at h
                  | some cs =>
                      simp [NodeTree.enterable, Node.enterable, he, hr, hv,
                        allEnterable_of_serializeRecList vt children cs hc]
theorem allEnterable_of_serializeRecList (vt : Expression → CtyType) :
    ∀ (ts : List NodeTree) (as : List AstTree), serializeRecList vt ts = some as →
      NodeTree.allEnterable ts = true
  | [], _, _ => rfl
  | t :: ts, as, h => by
      simp only [serializeRecList] at h
      cases h1 : serializeRec vt t with
      | none => simp [h1] at h
      | some d =>
          cases h2 : serializeRecList vt ts with
          | none => simp [h1, h2] at h
          | some ds =>
              simp [NodeTree.allEnterable, enterable_of_serializeRec vt t d h1,
                allEnterable_of_serializeRecList vt ts ds h2]
end

/-- The lifted example object serializes to `exampleObjectTree`. -/
theorem serializeRec_exampleObject (vt : Expression → CtyType) (p : TemplateParser)
    (kx ka : AstTree)
    (hx : serializeRec vt (p "x" "" Pos.zero).1.walkTree = some kx)
    (ha : serializeRec vt (p "${a}" "" Pos.zero).1.walkTree = some ka) :
    serializeRec vt (expressionForValue p exampleObject).1.walkTree
      = some (exampleObjectTree kx ka) := by
  have hx' : serializeRec vt (templateForString p "x").1.walkTree = some kx := hx
  have ha' : serializeRec vt (templateForString p "${a}").1.walkTree = some ka := ha
  simp [exampleObject, exampleTuple, expressionForValue, objectLoop, tupleLoop,
    Expression.walkTree, Expression.walkItems, Expression.walkTrees, serializeRec,
    serializeRecList, Node.asExpression, Expression.StartRange, Expression.valueNilReturns, hx', ha', literalValueExpr,
    NumberIntVal, exampleObjectTree, enterCell, enterSwitchFields, ExpressionAst.setType,
    ExpressionAst.setMeta, ExpressionAst.new, ExpressionAst.zero, metaSet, Value.ctyType]

theorem enterCell_tuple_meta (vt : Expression → CtyType) (es : List Expression)
    (sr o r : Range) :
    (enterCell vt none (.TupleConsExpr es sr o) r).Type_ = "Tuple" ∧
    (enterCell vt none (.TupleConsExpr es sr o) r).Meta = [] :=
  ⟨rfl, rfl⟩

theorem enterCell_object_meta (vt : Expression → CtyType)
    (items : List (Expression × Expression)) (sr o r : Range) :
    (enterCell vt none (.ObjectConsExpr items sr o) r).Type_ = "Object" ∧
    (enterCell vt none (.ObjectConsExpr items sr o) r).Meta = [] :=
  ⟨rfl, rfl⟩

theorem enterCell_literal_meta (vt : Expression → CtyType) (v : Value) (sr r : Range) :
    (enterCell vt none (.LiteralValueExpr v sr) r).Type_ = "LiteralValue" ∧
    (enterCell vt none (.LiteralValueExpr v sr) r).Meta = [("type", .ctyType v.ctyType)] := by
  constructor
  · rfl
  · simp [enterCell, enterSwitchFields, ExpressionAst.setMeta, ExpressionAst.setType, metaSet,
      ExpressionAst.new, ExpressionAst.zero]

theorem convertTraversal_foldl (t : Traversal) : ∀ (acc : List TraversalAst),
    t.foldl (fun res p =>
      match p with
      | .TraverseRoot name srcRange => res ++ [{ Segment := name, Range := srcRange }]
      | .TraverseAttr name srcRange => res ++ [{ Segment := name, Range := srcRange }]
      | _ => res) acc = acc ++ t.filterMap traversalEntry := by
  induction t with
  | nil => intro acc; simp
  | cons p ps ih =>
      intro acc
      cases p <;> simp [List.foldl_cons, ih, traversalEntry, List.filterMap_cons]

theorem filterMap_traversalEntry_length (t : Traversal) :
    (t.filterMap traversalEntry).length = t.countP Traverser.isRootOrAttr := by
  induction t with
  | nil => rfl
  | cons p ps ih =>
      cases p <;> simp [traversalEntry, Traverser.isRootOrAttr, List.filterMap_cons,
        List.countP_cons, ih]

theorem enterCell_scope_traversal (vt : Expression → CtyType) (t : Traversal) (sr r : Range) :
    (enterCell vt none (.ScopeTraversalExpr t sr) r).Type_ = "ScopeTraversal" ∧
    (enterCell vt none (.ScopeTraversalExpr t sr) r).Meta
      = [("traversal", .traversal (convertTraversal t))] := by
  constructor
  · rfl
  · simp [enterCell, enterSwitchFields, ExpressionAst.setMeta, ExpressionAst.setType, metaSet,
      ExpressionAst.new, ExpressionAst.zero]

theorem getOperationName_of_lookup_none (op : Operation)
    (h : operationNamesLookup.lookup op = none) : getOperationName op = "" := by
  simp [getOperationName, h]

theorem Enter_some_enterable (vt : Expression → CtyType) (node : Node) (w : ExpressionWalker)
    (r : Diagnostics × ExpressionWalker) (h : Enter vt node w = some r) :
    ∃ e r0, node.asExpression = some e ∧ e.StartRange = some r0 ∧
      e.valueNilReturns = true := by
  cases he : node.asExpression with
  | none => simp [Enter, he] at h
  | some e =>
      cases hr : e.StartRange with
      | none => simp [Enter, he, hr] at h
      | some r0 =>
          cases hv : e.valueNilReturns with
          | false => simp [Enter_value_panics vt node e w he hv] at h
          | true => exact ⟨e, r0, rfl, hr, hv⟩

/-- `Enter` on an accepted node when no node is current: the root object is
initialised and made current. -/
theorem Enter_root (vt : Expression → CtyType) (node : Node) (e : Expression) (r : Range)
    (w : ExpressionWalker) (hcur : w.Current = none)
    (he : node.asExpression = some e) (hr : e.StartRange = some r)
    (hv : e.valueNilReturns = true) :
    Enter vt node w = some ([],
      { Root := enterCell vt none e r, Stack := w.Stack, Current := some Ptr.root,
        heap := w.heap }) := by
  simp [Enter_returns vt node e r w he hr hv, enterLink, hcur, ExpressionWalker.updateCurrent,
    ExpressionWalker.update, enterCell]

theorem deref_update (w : ExpressionWalker) (c p : Ptr) (f : ExpressionAst → ExpressionAst) :
    (w.update c f).deref p = if c = p then (w.deref p).map f else w.deref p := by
  cases c with
  | root =>
      cases p with
      | root => simp [ExpressionWalker.update, ExpressionWalker.deref]
      | heap j => simp [ExpressionWalker.update, ExpressionWalker.deref]
  | heap i =>
      cases p with
      | root => simp [ExpressionWalker.update, ExpressionWalker.deref]
      | heap j =>
          simp only [ExpressionWalker.update, ExpressionWalker.deref, get?_updateAt,
            Ptr.heap.injEq]

theorem UpChain_valid (w : ExpressionWalker) : ∀ (p : Ptr) (l : List Ptr),
    UpChain w p l → p.valid w
  | p, [], h => by
      obtain ⟨hp, _⟩ := h
      subst hp
      trivial
  | _, _ :: _, h => h.1

/-- The chain of a node does not depend on the stack and the current node. -/
theorem UpChain_congr (w w' : ExpressionWalker) (hR : w'.Root = w.Root)
    (hH : w'.heap = w.heap) : ∀ (p : Ptr) (l : List Ptr), UpChain w p l → UpChain w' p l
  | p, [], h => by
      obtain ⟨hp, cell, hd, hpar⟩ := h
      refine ⟨hp, cell, ?_, hpar⟩
      cases p <;> simp_all [ExpressionWalker.deref]
  | p, q :: qs, h => by
      obtain ⟨hv, ⟨cell, hd, hpar⟩, hrest⟩ := h
      refine ⟨?_, ⟨cell, ?_, hpar⟩, UpChain_congr w w' hR hH q qs hrest⟩
      · cases p <;> simp_all [Ptr.valid]
      · cases p <;> simp_all [ExpressionWalker.deref]

/-- Linking a new child below `c` keeps the `Parent` of every existing node. -/
theorem deref_after_link (w : ExpressionWalker) (c p : Ptr) (ps : List Ptr)
    (cells : List ExpressionAst) (hp : p.valid w) (cell : ExpressionAst)
    (hd : w.deref p = some cell) :
    ∃ cell', (grow w c ps cells).deref p = some cell' ∧ cell'.Parent = cell.Parent := by
  have hu : ∃ cell', (w.update c (appendChildren ps)).deref p = some cell' ∧
      cell'.Parent = cell.Parent := by
    rw [deref_update]
    by_cases hcp : c = p
    · simp [hcp, hd, appendChildren]
    · simp [hcp, hd]
  obtain ⟨cell', h1, h2⟩ := hu
  refine ⟨cell', ?_, h2⟩
  cases p with
  | root => simpa [grow, ExpressionWalker.deref] using h1
  | heap i =>
      have hi : i < (w.update c (appendChildren ps)).heap.length := by
        rw [update_heap_length]; exact hp
      simp only [ExpressionWalker.deref] at h1
      simp only [grow, ExpressionWalker.deref, List.get?_eq_getElem?]
      rw [List.getElem?_append_left hi]
      simpa [List.get?_eq_getElem?] using h1

theorem valid_grow (w : ExpressionWalker) (c p : Ptr) (ps : List Ptr)
    (cells : List ExpressionAst) (hp : p.valid w) : p.valid (grow w c ps cells) := by
  cases p with
  | root => trivial
  | heap i =>
      have hi : i < w.heap.length := hp
      simp only [Ptr.valid, grow_heap_length]
      omega

theorem UpChain_grow (w : ExpressionWalker) (c : Ptr) (ps : List Ptr)
    (cells : List ExpressionAst) : ∀ (p : Ptr) (l : List Ptr),
    UpChain w p l → UpChain (grow w c ps cells) p l
  | p, [], h => by
      obtain ⟨hp, cell, hd, hpar⟩ := h
      subst hp
      obtain ⟨cell', h1, h2⟩ := deref_after_link w c Ptr.root ps cells trivial cell hd
      exact ⟨rfl, cell', h1, h2.trans hpar⟩
  | p, q :: qs, h => by
      obtain ⟨hv, ⟨cell, hd, hpar⟩, hrest⟩ := h
      obtain ⟨cell', h1, h2⟩ := deref_after_link w c p ps cells hv cell hd
      exact ⟨valid_grow w c p ps cells hv, ⟨cell', h1, h2.trans hpar⟩,
        UpChain_grow w c ps cells q qs hrest⟩

theorem enterCell_parent (vt : Expression → CtyType) (parent : Option Ptr) (e : Expression)
    (r : Range) : (enterCell vt parent e r).Parent = parent := by
  simp [enterCell, enterSwitchFields_parent, ExpressionAst.new]

/-- `Enter` keeps the ancestor-stack invariant and opens one more node. -/
theorem StackInvariant_Enter (vt : Expression → CtyType) (node : Node)
    (w w' : ExpressionWalker) (ds : Diagnostics) (d : Nat)
    (hinv : StackInvariant w d) (hE : Enter vt node w = some (ds, w')) :
    StackInvariant w' (d + 1) := by
  obtain ⟨cur, hcur, hchain, hlen⟩ := hinv
  obtain ⟨e, r, he, hr, hvr⟩ := Enter_some_enterable vt node w _ hE
  have hv := UpChain_valid w cur _ hchain
  rw [Enter_child vt node e r w cur hcur hv he hr hvr] at hE
  simp only [Option.some.injEq, Prod.mk.injEq] at hE
  obtain ⟨_, hw⟩ := hE
  subst hw
  refine ⟨Ptr.heap w.heap.length, rfl, ?_, by simp [hlen]⟩
  simp only [List.reverse_append, List.reverse_cons, List.reverse_nil, List.nil_append,
    List.singleton_append]
  refine ⟨?_, ⟨enterCell vt (some cur) e r, ?_, enterCell_parent vt _ e r⟩, ?_⟩
  · simp [Ptr.valid, update_heap_length]
  · simp only [ExpressionWalker.deref]
    exact get?_append_cons _ _ [] _ (update_heap_length _ _ _).symm
  · have key := UpChain_grow w cur [Ptr.heap w.heap.length] [enterCell vt (some cur) e r]
      cur _ hchain
    exact UpChain_congr
      (grow w cur [Ptr.heap w.heap.length] [enterCell vt (some cur) e r]) _ (by rfl) (by rfl)
      _ _ key

/-- `Exit` with at least two open nodes keeps the ancestor-stack invariant and
closes one node. -/
theorem StackInvariant_Exit (node : Node) (w : ExpressionWalker) (d : Nat)
    (hinv : StackInvariant w d) (hd : 2 ≤ d) :
    StackInvariant (Exit node w).2 (d - 1) := by
  obtain ⟨cur, hcur, hchain, hlen⟩ := hinv
  rcases List.eq_nil_or_concat w.Stack with hnil | ⟨s, top, hs⟩
  · rw [hnil] at hlen
    simp only [List.length_nil] at hlen
    omega
  · rw [List.concat_eq_append] at hs
    rw [hs] at hchain hlen
    rw [List.reverse_append] at hchain
    obtain ⟨_, _, hrest⟩ := hchain
    have hE : Exit node w = ([], { w with Stack := s, Current := some top }) := by
      simp [Exit, hs]
    rw [hE]
    refine ⟨top, rfl, UpChain_congr w _ (by rfl) (by rfl) _ _ hrest, ?_⟩
    simp only [List.length_append, List.length_singleton] at hlen
    show s.length + 1 = d - 1
    omega

/-- Every state reached by a prefix of the calls of a walk that does not exit the
root satisfies the ancestor-stack invariant. -/
theorem StackInvariant_runEvents (vt : Expression → CtyType) : ∀ (evs : List Event)
    (w w' : ExpressionWalker) (d d' : Nat), StackInvariant w d →
      openNodes d evs = some d' → runEvents vt evs w = some w' → StackInvariant w' d'
  | [], w, w', d, d', hinv, ho, hr => by
      simp only [openNodes, Option.some.injEq] at ho
      simp only [runEvents, Option.some.injEq] at hr
      subst ho; subst hr
      exact hinv
  | .enter node :: rest, w, w', d, d', hinv, ho, hr => by
      simp only [openNodes] at ho
      simp only [runEvents] at hr
      cases hE : Enter vt node w with
      | none => simp [hE] at hr
      | some r =>
          obtain ⟨ds, w1⟩ := r
          simp only [hE] at hr
          exact StackInvariant_runEvents vt rest w1 w' (d + 1) d'
            (StackInvariant_Enter vt node w w1 ds d hinv hE) ho hr
  | .exit node :: rest, w, w', d, d', hinv, ho, hr => by
      simp only [openNodes] at ho
      simp only [runEvents] at hr
      by_cases hd : 2 ≤ d
      · simp only [hd, if_true] at ho
        exact StackInvariant_runEvents vt rest _ w' (d - 1) d'
          (StackInvariant_Exit node w d hinv hd) ho hr
      · simp [hd] at ho

/-- The first `Enter` of a fresh walker establishes the invariant with one open
node. -/
theorem StackInvariant_first (vt : Expression → CtyType) (node : Node)
    (w : ExpressionWalker) (ds : Diagnostics)
    (hE : Enter vt node ExpressionWalker.fresh = some (ds, w)) : StackInvariant w 1 := by
  obtain ⟨e, r, he, hr, hvr⟩ := Enter_some_enterable vt node _ _ hE
  rw [Enter_root vt node e r ExpressionWalker.fresh rfl he hr hvr] at hE
  simp only [Option.some.injEq, Prod.mk.injEq] at hE
  obtain ⟨_, hw⟩ := hE
  subst hw
  exact ⟨Ptr.root, rfl, ⟨rfl, enterCell vt none e r, rfl, enterCell_parent vt none e r⟩, rfl⟩

theorem StackInvariant_fresh_run (vt : Expression → CtyType) (evs : List Event)
    (w : ExpressionWalker) (d : Nat)
    (hr : runEvents vt evs ExpressionWalker.fresh = some w)
    (ho : openNodes 0 evs = some d) (hd : 1 ≤ d) : StackInvariant w d := by
  cases evs with
  | nil =>
      simp only [openNodes, Option.some.injEq] at ho
      omega
  | cons ev rest =>
      cases ev with
      | exit node => simp [openNodes] at ho
      | enter node =>
          simp only [openNodes] at ho
          simp only [runEvents] at hr
          cases hE : Enter vt node ExpressionWalker.fresh with
          | none => simp [hE] at hr
          | some r =>
              obtain ⟨ds, w1⟩ := r
              simp only [hE] at hr
              exact StackInvariant_runEvents vt rest w1 w 1 d
                (StackInvariant_first vt node w1 ds hE) ho hr

theorem UpChain_parentChain (w : ExpressionWalker) : ∀ (l : List Ptr) (p : Ptr) (fuel : Nat),
    UpChain w p l → l.length < fuel → w.parentChain fuel p = l
  | [], p, fuel, h, hf => by
      obtain ⟨_, cell, hd, hpar⟩ := h
      cases fuel with
      | zero => simp at hf
      | succ f => simp [ExpressionWalker.parentChain, hd, hpar]
  | q :: qs, p, fuel, h, hf => by
      obtain ⟨_, ⟨cell, hd, hpar⟩, hrest⟩ := h
      cases fuel with
      | zero => simp at hf
      | succ f =>
          have hf' : qs.length < f := by simpa using hf
          simp [ExpressionWalker.parentChain, hd, hpar, UpChain_parentChain w qs q f hrest hf']

theorem UpChain_root_first (w : ExpressionWalker) : ∀ (l : List Ptr) (p : Ptr),
    UpChain w p l → (l.reverse ++ [p]).head? = some Ptr.root
  | [], p, h => by simp [h.1]
  | q :: qs, p, h => by
      have ih := UpChain_root_first w qs q h.2.2
      simp only [List.reverse_cons]
      rw [List.head?_append_of_ne_nil _ (by simp)]
      exact ih

theorem UpChain_parent (w : ExpressionWalker) (l : List Ptr) (p : Ptr) (h : UpChain w p l) :
    ∃ cell, w.deref p = some cell ∧ cell.Parent = l.head? := by
  cases l with
  | nil =>
      obtain ⟨_, cell, hd, hpar⟩ := h
      exact ⟨cell, hd, hpar⟩
  | cons q qs =>
      obtain ⟨_, ⟨cell, hd, hpar⟩, _⟩ := h
      exact ⟨cell, hd, hpar⟩

theorem runEvents_append (vt : Expression → CtyType) : ∀ (a b : List Event)
    (w : ExpressionWalker),
    runEvents vt (a ++ b) w = (runEvents vt a w).bind (runEvents vt b)
  | [], b, w => rfl
  | .enter node :: rest, b, w => by
      simp only [List.cons_append, runEvents]
      cases Enter vt node w with
      | none => rfl
      | some r => exact runEvents_append vt rest b r.2
  | .exit node :: rest, b, w => by
      simp only [List.cons_append, runEvents]
      exact runEvents_append vt rest b _

mutual
/-- The walk of a tree makes the calls of `NodeTree.events` in order. -/
theorem Walk_eq_runEvents (vt : Expression → CtyType) : ∀ (t : NodeTree)
    (w : ExpressionWalker), (Walk vt t w).map Prod.snd = runEvents vt t.events w
  | .mk node children, w => by
      simp only [Walk, NodeTree.events, runEvents]
      cases hE : Enter vt node w with
      | none => rfl
      | some r =>
          obtain ⟨d, w1⟩ := r
          simp only [runEvents_append]
          rw [← WalkChildren_eq_runEvents vt children d w1]
          cases WalkChildren vt children (d, w1) with
          | none => rfl
          | some r2 => simp [runEvents]
theorem WalkChildren_eq_runEvents (vt : Expression → CtyType) : ∀ (cs : List NodeTree)
    (d : Diagnostics) (w : ExpressionWalker),
    (WalkChildren vt cs (d, w)).map Prod.snd = runEvents vt (NodeTree.eventsList cs) w
  | [], d, w => rfl
  | c :: cs, d, w => by
      simp only [WalkChildren, NodeTree.eventsList, runEvents_append]
      rw [← Walk_eq_runEvents vt c w]
      cases Walk vt c w with
      | none => rfl
      | some r =>
          obtain ⟨d1, w1⟩ := r
          exact WalkChildren_eq_runEvents vt cs (d ++ d1) w1
end

theorem serializeRec_none_of_not_enterable (vt : Expression → CtyType) (t : NodeTree)
    (h : t.enterable = false) : serializeRec vt t = none := by
  cases hs : serializeRec vt t with
  | none => rfl
  | some a =>
      have := enterable_of_serializeRec vt t a hs
      rw [h] at this
      cases this

/-- The walk with a fresh walker and the direct recursive serialization agree on
every tree: both fail when `Enter` does not accept some visited node, and otherwise
the tree left in `walker.Root` is the recursive serialization. -/
theorem Walk_fresh_eq_serializeRec (vt : Expression → CtyType) (t : NodeTree) :
    (Walk vt t ExpressionWalker.fresh).bind (fun r => r.2.rootTree) = serializeRec vt t := by
  cases h : t.enterable with
  | false => simp [Walk_not_enterable vt t h, serializeRec_none_of_not_enterable vt t h]
  | true =>
      obtain ⟨w, hw, _, _, ht⟩ := Walk_fresh_rootTree vt t h
      simp [hw, ht]

theorem Enter_diags (vt : Expression → CtyType) (node : Node) (e : Expression) (r : Range)
    (he : node.asExpression = some e) (hr : e.StartRange = some r)
    (hv : e.valueNilReturns = true) (w : ExpressionWalker) :
    (Enter vt node w).map Prod.fst = some [] := by
  simp [Enter_returns vt node e r w he hr hv]

theorem marshalList_treeAt (enc : TypeEncoder) (w : ExpressionWalker) (fuel : Nat)
    (ih : ∀ (p : Ptr) (t : AstTree), w.treeAt fuel p = some t →
      ∃ a, w.deref p = some a ∧ w.marshal enc fuel a = t.toJson enc) :
    ∀ (ps : List Ptr) (cs : List AstTree), mapOpt (w.treeAt fuel) ps = some cs →
      mapOpt (fun p =>
        match w.deref p with
        | none => none
        | some c => w.marshal enc fuel c) ps = AstTree.toJsonList enc cs
  | [], cs, h => by
      simp only [mapOpt, Option.some.injEq] at h
      subst h
      rfl
  | p :: ps, cs, h => by
      simp only [mapOpt] at h
      cases h1 : w.treeAt fuel p with
      | none => simp [h1] at h
      | some t =>
          cases h2 : mapOpt (w.treeAt fuel) ps with
          | none => simp [h1, h2] at h
          | some ts =>
              simp only [h1, h2, Option.some.injEq] at h
              subst h
              obtain ⟨a, ha, hm⟩ := ih p t h1
              have hrest := marshalList_treeAt enc w fuel ih ps ts h2
              simp only [mapOpt, ha, hm, hrest, AstTree.toJsonList]
              cases t.toJson enc <;> cases AstTree.toJsonList enc ts <;> rfl

/-- Encoding the object at a pointer is encoding the tree that the pointer leads
to. -/
theorem marshal_treeAt (enc : TypeEncoder) (w : ExpressionWalker) :
    ∀ (fuel : Nat) (p : Ptr) (t : AstTree), w.treeAt fuel p = some t →
      ∃ a, w.deref p = some a ∧ w.marshal enc fuel a = t.toJson enc
  | 0, _, _, h => by simp [ExpressionWalker.treeAt] at h
  | fuel + 1, p, t, h => by
      simp only [ExpressionWalker.treeAt] at h
      cases hd : w.deref p with
      | none => simp [hd] at h
      | some a =>
          cases hc : mapOpt (w.treeAt fuel) a.Children with
          | none => simp [hd, hc] at h
          | some cs =>
              simp only [hd, hc, Option.some.injEq] at h
              subst h
              refine ⟨a, rfl, ?_⟩
              have hl := marshalList_treeAt enc w fuel (marshal_treeAt enc w fuel) a.Children cs hc
              simp only [ExpressionWalker.marshal, AstTree.toJson]
              rw [← hl]

theorem insertMember_any (k : String) (kv : String × Json) : ∀ (xs : List (String × Json)),
    (insertMember kv xs).any (fun x => x.1 == k) = (kv.1 == k || xs.any (fun x => x.1 == k))
  | [] => by simp [insertMember]
  | x :: xs => by
      by_cases h : kv.1 < x.1
      · simp [insertMember, h]
      · simp only [insertMember, h, if_false, List.any_cons, insertMember_any k kv xs]
        cases (x.1 == k) <;> cases (kv.1 == k) <;> rfl

theorem foldr_insertMember_any (k : String) : ∀ (ms : List (String × Json)),
    (ms.foldr insertMember []).any (fun x => x.1 == k) = ms.any (fun x => x.1 == k)
  | [] => rfl
  | m :: ms => by
      simp only [List.foldr_cons, insertMember_any, foldr_insertMember_any k ms, List.any_cons]

/-- The members that the encoder of a meta map collects: one for each entry, under
the entry's key, when the type encoder accepts every stored type. -/
theorem mapOpt_meta_some (enc : TypeEncoder) : ∀ (m : MetaMap),
    m.all (fun kv => kv.2.encodable enc) = true →
    ∃ members, mapOpt (fun kv => (marshalMetaValue enc kv.2).map (fun j => (kv.1, j))) m
        = some members ∧ members.map Prod.fst = m.map Prod.fst
  | [], _ => ⟨[], rfl, rfl⟩
  | (k, v) :: m, h => by
      simp only [List.all_cons, Bool.and_eq_true] at h
      obtain ⟨members, hm, hk⟩ := mapOpt_meta_some enc m h.2
      have hv : ∃ j, marshalMetaValue enc v = some j := by
        cases v with
        | ctyType t =>
            have ht : (enc t).isSome = true := h.1
            cases he : enc t with
            | none => simp [he] at ht
            | some j => exact ⟨j, by simp [marshalMetaValue, he]⟩
        | traversal ts => cases ts <;> exact ⟨_, rfl⟩
        | _ => exact ⟨_, rfl⟩
      obtain ⟨j, hj⟩ := hv
      exact ⟨(k, j) :: members, by simp [mapOpt, hj, hm], by simp [hk]⟩

/-- A meta map whose stored types the type encoder accepts is encoded as an object
that has a member for each key of the map, and no member when the map is empty. -/
theorem marshalMeta_some (enc : TypeEncoder) (m : MetaMap)
    (h : m.all (fun kv => kv.2.encodable enc) = true) :
    ∃ ms, marshalMeta enc m = some (.obj ms) ∧
      m.all (fun kv => ms.any (fun x => x.1 == kv.1)) = true := by
  obtain ⟨members, hm, hk⟩ := mapOpt_meta_some enc m h
  refine ⟨members.foldr insertMember [], by simp [marshalMeta, hm], ?_⟩
  rw [List.all_eq_true]
  intro kv hkv
  rw [foldr_insertMember_any, List.any_eq_true]
  have hmem : kv.1 ∈ members.map Prod.fst := by
    rw [hk]; exact List.mem_map_of_mem _ hkv
  obtain ⟨x, hx, hxk⟩ := List.mem_map.mp hmem
  exact ⟨x, hx, by simp [hxk]⟩

theorem encodesNode_obj (ty : String) (m : MetaMap) (rng : RangeAst) (cs : List AstTree)
    (js : List Json) (ms : List (String × Json))
    (hm : m.all (fun kv => ms.any (fun x => x.1 == kv.1)) = true)
    (hc : encodesNodes cs js = true) :
    encodesNode (.mk ty m rng cs)
      (.obj ([("children", .arr js), ("type", .str ty)]
        ++ (if m.isEmpty then [] else [("meta", .obj ms)])
        ++ [("range", marshalRangeAst rng)])) = true := by
  cases m with
  | nil => simp [encodesNode, List.lookup, hc]
  | cons kv m => simp [encodesNode, List.lookup, hc, hm]

mutual
/-- A tree whose stored types the type encoder accepts has an encoding, and the
encoding has the form of an encoded node at every node. -/
theorem toJson_encodes (enc : TypeEncoder) : ∀ (t : AstTree), t.typesEncodable enc = true →
    ∃ j, t.toJson enc = some j ∧ encodesNode t j = true
  | .mk ty m rng cs, h => by
      simp only [AstTree.typesEncodable, Bool.and_eq_true] at h
      obtain ⟨js, hjs, hcs⟩ := toJsonList_encodes enc cs h.2
      obtain ⟨ms, hms, hkeys⟩ := marshalMeta_some enc m h.1
      exact ⟨_, by simp only [AstTree.toJson, hjs, hms],
        encodesNode_obj ty m rng cs js ms hkeys hcs⟩
theorem toJsonList_encodes (enc : TypeEncoder) : ∀ (cs : List AstTree),
    AstTree.typesEncodableList enc cs = true →
    ∃ js, AstTree.toJsonList enc cs = some js ∧ encodesNodes cs js = true
  | [], _ => ⟨[], rfl, rfl⟩
  | c :: cs, h => by
      simp only [AstTree.typesEncodableList, Bool.and_eq_true] at h
      obtain ⟨j, hj, hc⟩ := toJson_encodes enc c h.1
      obtain ⟨js, hjs, hcs⟩ := toJsonList_encodes enc cs h.2
      exact ⟨j :: js, by simp only [AstTree.toJsonList, hj, hjs],
        by simp [encodesNodes, hc, hcs]⟩
end

theorem encodesNodes_length : ∀ (cs : List AstTree) (js : List Json),
    encodesNodes cs js = true → js.length = cs.length
  | [], [], _ => rfl
  | [], _ :: _, h => by simp [encodesNodes] at h
  | _ :: _, [], h => by simp [encodesNodes] at h
  | c :: cs, j :: js, h => by
      simp only [encodesNodes, Bool.and_eq_true] at h
      simp [encodesNodes_length cs js h.2]

theorem serializeRecList_length (vt : Expression → CtyType) :
    ∀ (ts : List NodeTree) (cs : List AstTree), serializeRecList vt ts = some cs →
      cs.length = ts.length := by
  intro ts cs h
  have hs := (serializeRecList_shape vt ts cs h).1
  clear h
  induction ts generalizing cs with
  | nil => cases cs with
    | nil => rfl
    | cons c cs => simp [sameShapeList] at hs
  | cons t ts ih => cases cs with
    | nil => simp [sameShapeList] at hs
    | cons c cs =>
        simp only [sameShapeList, Bool.and_eq_true] at hs
        simp [ih cs hs.2]

theorem walkTrees_length : ∀ (es : List Expression),
    (Expression.walkTrees es).length = es.length
  | [] => rfl
  | e :: es => by simp [Expression.walkTrees, walkTrees_length es]

theorem walkItems_length : ∀ (items : List (Expression × Expression)),
    (Expression.walkItems items).length = 2 * items.length
  | [] => rfl
  | (k, v) :: items => by
      simp only [Expression.walkItems, List.length_cons, walkItems_length items]
      omega

/-- A walk with a fresh walker whose direct recursive serialization is `t` returns
a walker whose root holds `t`, and `json.MarshalIndent` on that root is the encoding
of `t`. -/
theorem Walk_fresh_MarshalIndent (vt : Expression → CtyType) (enc : TypeEncoder)
    (n : NodeTree) (t : AstTree) (hs : serializeRec vt n = some t) :
    ∃ w, Walk vt n ExpressionWalker.fresh = some ([], w) ∧ w.rootTree = some t ∧
      w.MarshalIndent enc = t.toJson enc := by
  have he := enterable_of_serializeRec vt _ t hs
  obtain ⟨w, hw, _, _, ht⟩ := Walk_fresh_rootTree vt _ he
  rw [hs] at ht
  obtain ⟨a, ha, hm⟩ := marshal_treeAt enc w _ _ t ht
  have ha' : a = w.Root := by
    simp only [ExpressionWalker.deref, Option.some.injEq] at ha
    exact ha.symm
  subst ha'
  exact ⟨w, hw, ht, hm⟩

/-- The program on an expression whose walk returns the tree `t`:
`expressionToMarshalledAst` returns the encoding of `t`. -/
theorem expressionToMarshalledAst_toJson (vt : Expression → CtyType) (enc : TypeEncoder)
    (e : Expression) (t : AstTree) (hs : serializeRec vt e.walkTree = some t) :
    expressionToMarshalledAst vt enc e = some (t.toJson enc, none) := by
  obtain ⟨w, hw, _, hm⟩ := Walk_fresh_MarshalIndent vt enc _ t hs
  simp only [expressionToMarshalledAst, hw, hm]

/-! ## Claims -/

/-- C1 (failing input): the claim promises a serialized tree for every expression
tree, but a walk that reaches a `for` expression does not return. For the template
`${[for v in l : v]}` the walk enters the `TemplateWrapExpr`, the `ForExpr` and
its collection, and is then handed the `ChildScope` node that wraps the value
expression; the type assertion at the top of `Enter` panics on it, so neither the
walk nor `expressionToMarshalledAst` produces a result. -/
theorem C1_walk_panics_on_for_expression (vt : Expression → CtyType) (enc : TypeEncoder) :
    exampleFor.walkTree.enterable = false ∧
    Walk vt exampleFor.walkTree ExpressionWalker.fresh = none ∧
    expressionToMarshalledAst vt enc exampleFor = none :=
  ⟨rfl, rfl, rfl⟩

/-- C2: for a non-null value of tuple type, `expressionForValue` returns a
`TupleConsExpr` whose `Exprs` has as many entries as the element iterator yields
elements, and whose `i`-th entry is the node returned by `expressionForValue` for
the `i`-th element. -/
theorem C2_tuple_elements_in_order (p : TemplateParser) (val : Value)
    (hn : val.IsNull = false) (ht : val.ctyType.IsTupleType = true) :
    ∃ it exprs, val.ElementIterator = some it ∧
      (expressionForValue p val).1 = .TupleConsExpr exprs Range.zero Range.zero ∧
      exprs.length = it.length ∧
      ∀ i, i < it.length →
        exprs[i]? = (it[i]?).map (fun kv => (expressionForValue p kv.2).1) := by
  cases val with
  | tuple elems =>
      refine ⟨indexKeys 0 elems, elems.map (fun v => (expressionForValue p v).1), rfl, ?_, ?_, ?_⟩
      · simp [expressionForValue, tupleLoop_eq]
      · have h := congrArg List.length (indexKeys_map_snd 0 elems)
        simp only [List.length_map] at h
        simp [h]
      · intro i _
        conv_lhs => rw [← indexKeys_map_snd 0 elems]
        simp only [List.map_map, List.getElem?_map]
        rfl
  | null ty => simp [Value.IsNull] at hn
  | _ => simp [Value.ctyType, CtyType.IsTupleType] at ht

/-- C2 (witness): the tuple `[1, "${a}", true]` is a non-null value of tuple type. -/
theorem C2_tuple_elements_in_order_witness :
    exampleTuple.IsNull = false ∧ exampleTuple.ctyType.IsTupleType = true ∧
    ∃ it exprs, exampleTuple.ElementIterator = some it ∧
      (expressionForValue exampleParser exampleTuple).1
        = .TupleConsExpr exprs Range.zero Range.zero ∧
      exprs.length = it.length ∧
      ∀ i, i < it.length →
        exprs[i]? = (it[i]?).map (fun kv => (expressionForValue exampleParser kv.2).1) :=
  ⟨rfl, rfl, C2_tuple_elements_in_order exampleParser exampleTuple rfl rfl⟩

/-- C3: `expressionForValue` terminates and returns a node for every value. The
source text with its recursive calls made literally returns, within a call depth of
the size of the value, the node and diagnostics of the total function
`expressionForValue`: every recursive call is on a strictly smaller value. -/
theorem C3_expressionForValue_terminates (p : TemplateParser) (val : Value) (fuel : Nat)
    (h : val.size ≤ fuel) :
    expressionForValueFuel p fuel val = some (expressionForValue p val) :=
  fuel_value p val fuel h

/-- C3 (witness): the object `{"x": [1, "${a}", true]}` has size 6. -/
theorem C3_expressionForValue_terminates_witness :
    exampleObject.size ≤ 6 ∧
    expressionForValueFuel exampleParser 6 exampleObject
      = some (expressionForValue exampleParser exampleObject) :=
  ⟨by decide, C3_expressionForValue_terminates exampleParser exampleObject 6 (by decide)⟩

/-- C4 (counterexample): for the binary operation `1 + 2` the `operator` entry that
`Enter` writes is not `"add"`. -/
theorem C4_add_operator_is_not_lowercase :
    ¬ ((enteredNode exampleValueType (.expr exampleAdd) ExpressionWalker.fresh).bind
        (fun c => c.Meta.lookup "operator") = some (.str "add")) := by
  have h : (enteredNode exampleValueType (.expr exampleAdd) ExpressionWalker.fresh).bind
      (fun c => c.Meta.lookup "operator") = some (.str "Add") := by rfl
  rw [h]
  intro hc
  injection hc with hc
  injection hc with hc
  exact absurd hc (by decide)

/-- C4 (amended): for every operator `op` that `operationNamesLookup` maps to
`name` (one of `LogicalOr`, `LogicalAnd`, `LogicalNot`, `Equal`, `NotEqual`,
`GreaterThan`, `GreaterThanOrEqual`, `LessThan`, `LessThanOrEqual`, `Add`,
`Subtract`, `Multiply`, `Divide`, `Modulo`, `Negate`), `getOperationName op` is
`name`, and in every state of the walker `Enter` on a unary operation with `op`, and
on a binary operation with `op` whose start range is defined, creates a node whose
`operator` meta entry is `name`. -/
theorem C4_operator_names (vt : Expression → CtyType) (w : ExpressionWalker)
    (op : Operation) (name : String) (h : (op, name) ∈ operationNamesLookup) :
    getOperationName op = name ∧
    (∀ val sr sym, ∃ cell,
      enteredNode vt (.expr (.UnaryOpExpr op val sr sym)) w = some cell ∧
      cell.Type_ = "UnaryOp" ∧ cell.Meta.lookup "operator" = some (.str name)) ∧
    (∀ lhs rhs sr r, lhs.StartRange = some r → ∃ cell,
      enteredNode vt (.expr (.BinaryOpExpr lhs op rhs sr)) w = some cell ∧
      cell.Type_ = "BinaryOp" ∧ cell.Meta.lookup "operator" = some (.str name)) := by
  have hn := getOperationName_of_mem op name h
  have hi := hasImpl_of_mem op name h
  refine ⟨hn, ?_, ?_⟩
  · intro val sr sym
    obtain ⟨cell, h1, h2, h3, _⟩ :=
      Enter_entered vt (.expr (.UnaryOpExpr op val sr sym)) _ sym rfl rfl hi w
    refine ⟨cell, h1, ?_, ?_⟩
    · rw [h2]; rfl
    · rw [h3, (enterCell_unary_operator vt op val sr sym sym).2, hn]
  · intro lhs rhs sr r hr
    obtain ⟨cell, h1, h2, h3, _⟩ :=
      Enter_entered vt (.expr (.BinaryOpExpr lhs op rhs sr)) _ r rfl
        (by simpa [Expression.StartRange] using hr) hi w
    refine ⟨cell, h1, ?_, ?_⟩
    · rw [h2]; rfl
    · rw [h3, (enterCell_binary_operator vt op lhs rhs sr r).2, hn]

/-- C4 (witness): the table maps `OpAdd` to `"Add"`. -/
theorem C4_operator_names_witness :
    (Operation.OpAdd, "Add") ∈ operationNamesLookup ∧
    (getOperationName .OpAdd = "Add" ∧
    (∀ val sr sym, ∃ cell,
      enteredNode exampleValueType (.expr (.UnaryOpExpr .OpAdd val sr sym))
        ExpressionWalker.fresh = some cell ∧
      cell.Type_ = "UnaryOp" ∧ cell.Meta.lookup "operator" = some (.str "Add")) ∧
    (∀ lhs rhs sr r, lhs.StartRange = some r → ∃ cell,
      enteredNode exampleValueType (.expr (.BinaryOpExpr lhs .OpAdd rhs sr))
        ExpressionWalker.fresh = some cell ∧
      cell.Type_ = "BinaryOp" ∧ cell.Meta.lookup "operator" = some (.str "Add"))) :=
  ⟨by decide,
    C4_operator_names exampleValueType ExpressionWalker.fresh .OpAdd "Add" (by decide)⟩

/-- C5 (counterexample): for the call `foo(1, 2)` starting at byte 0 the range of the
node that `Enter` creates is not the span of the name token, bytes 0 to 3. -/
theorem C5_call_range_is_not_name_range :
    ¬ ((enteredNode exampleValueType (.expr exampleCall) ExpressionWalker.fresh).map
        (fun c => c.Range) = some (convertRangeToAst (byteRange 0 3))) := by
  decide

/-- C5 (amended): for every function-call node, in every state of the walker, the
node that `Enter` creates has type `function`, a range that starts where the name
token starts and ends where the opening parenthesis ends, `meta.name` equal to the
name of the call and `meta.nameRange` equal to the span of the name token; for the
call `foo(1, 2)` starting at byte 0 the range is bytes 0 to 4 and `meta.name` is
`"foo"`. -/
theorem C5_function_call_range (vt : Expression → CtyType) (w : ExpressionWalker)
    (name : String) (args : List Expression) (expandFinal : Bool)
    (nameRange openParenRange closeParenRange : Range) :
    (∃ cell, enteredNode vt
        (.expr (.FunctionCallExpr name args expandFinal nameRange openParenRange closeParenRange))
        w = some cell ∧
      cell.Type_ = "function" ∧
      cell.Range = ⟨convertPosToAst nameRange.Start, convertPosToAst openParenRange.End⟩ ∧
      cell.Meta.lookup "name" = some (.str name) ∧
      cell.Meta.lookup "nameRange"
        = some (.posRange (convertPosToAst nameRange.Start) (convertPosToAst nameRange.End))) ∧
    (∃ cell, enteredNode vt (.expr exampleCall) w = some cell ∧
      cell.Range.Start.Byte = 0 ∧ cell.Range.End.Byte = 4 ∧
      cell.Meta.lookup "name" = some (.str "foo")) := by
  have key : ∀ (name : String) (args : List Expression) (expandFinal : Bool)
      (nameRange openParenRange closeParenRange : Range),
      ∃ cell, enteredNode vt
        (.expr (.FunctionCallExpr name args expandFinal nameRange openParenRange closeParenRange))
        w = some cell ∧
      cell.Type_ = "function" ∧
      cell.Range = ⟨convertPosToAst nameRange.Start, convertPosToAst openParenRange.End⟩ ∧
      cell.Meta.lookup "name" = some (.str name) ∧
      cell.Meta.lookup "nameRange"
        = some (.posRange (convertPosToAst nameRange.Start) (convertPosToAst nameRange.End)) := by
    intro name args expandFinal nameRange openParenRange closeParenRange
    obtain ⟨cell, h1, h2, h3, h4⟩ := Enter_entered vt
      (.expr (.FunctionCallExpr name args expandFinal nameRange openParenRange closeParenRange))
      _ (RangeBetween nameRange openParenRange) rfl rfl rfl w
    refine ⟨cell, h1, ?_, ?_, ?_, ?_⟩
    · rw [h2]; rfl
    · rw [h4]; rfl
    · rw [h3]
      simp [enterCell, enterSwitchFields, ExpressionAst.setMeta, ExpressionAst.setType, metaSet,
        ExpressionAst.new, ExpressionAst.zero, List.lookup]
    · rw [h3]
      simp [enterCell, enterSwitchFields, ExpressionAst.setMeta, ExpressionAst.setType, metaSet,
        ExpressionAst.new, ExpressionAst.zero, List.lookup, posRangeOf]
  refine ⟨key name args expandFinal nameRange openParenRange closeParenRange, ?_⟩
  obtain ⟨cell, h1, _, h3, h4, _⟩ := key "foo"
    [.LiteralValueExpr (NumberIntVal 1) (byteRange 4 5),
     .LiteralValueExpr (NumberIntVal 2) (byteRange 7 8)]
    false (byteRange 0 3) (byteRange 3 4) (byteRange 8 9)
  refine ⟨cell, h1, ?_, ?_, h4⟩
  · rw [h3]; rfl
  · rw [h3]; rfl

/-- C6 (counterexample): whatever the template parser returns, the serialized tree of
the lifted value of `{"x": [1, "${a}", true]}` is never a root of type `Object`
with a single child of type `Tuple` whose three children have the types
`LiteralValue`, `Template`, `LiteralValue`: the root has two children, the first
being the node of the key. -/
theorem C6_object_root_has_no_single_child :
    ¬ ∃ (vt : Expression → CtyType) (p : TemplateParser) (d : Diagnostics)
        (w : ExpressionWalker) (t c : AstTree),
      Walk vt (expressionForValue p exampleObject).1.walkTree ExpressionWalker.fresh
        = some (d, w) ∧
      w.rootTree = some t ∧ t.type = "Object" ∧ t.children = [c] ∧ c.type = "Tuple" ∧
      c.children.map AstTree.type = ["LiteralValue", "Template", "LiteralValue"] := by
  rintro ⟨vt, p, d, w, t, c, hW, ht, _, hc, _, _⟩
  have he : (expressionForValue p exampleObject).1.walkTree.enterable = true := by
    rw [← Walk_fresh_isSome vt, hW]; rfl
  obtain ⟨w', hw', _, _, ht'⟩ := Walk_fresh_rootTree vt _ he
  rw [hW] at hw'
  have hww : w = w' := by injection hw' with h; injection h
  subst hww
  have hsome := serializeRec_isSome vt _ he
  -- the two templates serialize, since they are part of the accepted tree
  cases hx : serializeRec vt (p "x" "" Pos.zero).1.walkTree with
  | none =>
      have hx' : serializeRec vt (templateForString p "x").1.walkTree = none := hx
      simp [exampleObject, exampleTuple, expressionForValue, objectLoop, tupleLoop,
        Expression.walkTree, Expression.walkItems, serializeRec, serializeRecList,
        Node.asExpression, Expression.StartRange, Expression.valueNilReturns, hx'] at hsome
  | some kx =>
      cases ha : serializeRec vt (p "${a}" "" Pos.zero).1.walkTree with
      | none =>
          have hx' : serializeRec vt (templateForString p "x").1.walkTree = some kx := hx
          have ha' : serializeRec vt (templateForString p "${a}").1.walkTree = none := ha
          simp [exampleObject, exampleTuple, expressionForValue, objectLoop, tupleLoop,
            Expression.walkTree, Expression.walkItems, Expression.walkTrees, serializeRec,
            serializeRecList, Node.asExpression, Expression.StartRange, Expression.valueNilReturns, hx', ha',
            literalValueExpr] at hsome
      | some ka =>
          have hs := serializeRec_exampleObject vt p kx ka hx ha
          rw [ht', hs] at ht
          injection ht with ht
          subst ht
          simp [exampleObjectTree, AstTree.children] at hc

/-- C6 (amended): for the value of `{"x": [1, "${a}", true]}`, when the templates
parsed from the key `x` and from the element `${a}` serialize to the trees `kx` and
`ka`, the walk of the lifted expression returns and leaves in `walker.Root` a node
of type `Object` with two children, `kx` and then a node of type `Tuple`; the
`Tuple` node has exactly three children, in order a `LiteralValue`, `ka` and a
`LiteralValue`. -/
theorem C6_example_object_tree (vt : Expression → CtyType) (p : TemplateParser) (kx ka : AstTree)
    (hx : serializeRec vt (p "x" "" Pos.zero).1.walkTree = some kx)
    (ha : serializeRec vt (p "${a}" "" Pos.zero).1.walkTree = some ka) :
    ∃ w, Walk vt (expressionForValue p exampleObject).1.walkTree ExpressionWalker.fresh
        = some ([], w) ∧
      w.rootTree = some (exampleObjectTree kx ka) := by
  have hs := serializeRec_exampleObject vt p kx ka hx ha
  obtain ⟨w, hw, _, _, ht⟩ := Walk_fresh_rootTree vt _
    (enterable_of_serializeRec vt _ _ hs)
  exact ⟨w, hw, ht.trans hs⟩

/-- C6 (witness): with the example parser the key serializes to a `Template` node
with one `LiteralValue` child, and the element `${a}` to a `TemplateWrap` node with
one `ScopeTraversal` child. -/
theorem C6_example_object_tree_witness :
    serializeRec exampleValueType (exampleParser "x" "" Pos.zero).1.walkTree
      = some (.mk "Template" [] (convertRangeToAst (byteRange 0 1))
          [.mk "LiteralValue" [("type", .ctyType .string)]
            (convertRangeToAst (byteRange 0 1)) []]) ∧
    serializeRec exampleValueType (exampleParser "${a}" "" Pos.zero).1.walkTree
      = some (.mk "TemplateWrap" [] (convertRangeToAst (byteRange 0 4))
          [.mk "ScopeTraversal" [("traversal", .traversal [⟨"a", byteRange 2 3⟩])]
            (convertRangeToAst (byteRange 2 3)) []]) ∧
    ∃ w, Walk exampleValueType (expressionForValue exampleParser exampleObject).1.walkTree
        ExpressionWalker.fresh = some ([], w) ∧
      w.rootTree = some (exampleObjectTree
        (.mk "Template" [] (convertRangeToAst (byteRange 0 1))
          [.mk "LiteralValue" [("type", .ctyType .string)]
            (convertRangeToAst (byteRange 0 1)) []])
        (.mk "TemplateWrap" [] (convertRangeToAst (byteRange 0 4))
          [.mk "ScopeTraversal" [("traversal", .traversal [⟨"a", byteRange 2 3⟩])]
            (convertRangeToAst (byteRange 2 3)) []])) :=
  ⟨rfl, rfl, C6_example_object_tree exampleValueType exampleParser _ _ rfl rfl⟩

/-- C7: for an expression whose walk returns the tree `t`, and a type encoder that
accepts the types stored in the meta maps of `t`, `expressionToMarshalledAst`
returns a JSON document `j`, the encoding of the root node with all the nodes below
it. At every node of the tree the encoding is an object whose keys are `children`,
`type`, `meta` and `range`, where `meta` is there exactly when the node's meta map
is not empty, so no key holds the parent link; `children` holds the encodings of the
child nodes, one for each, in order (`encodesNode`). For the root: a tuple
constructor gives a `Tuple` node with one child for each element and an object
constructor an `Object` node with two children for each item, both encoded with the
keys `children`, `type`, `range` only; a literal is encoded with `meta.type`
present. In every state of the walker, `Enter` gives a `Tuple` and an `Object` node
an empty meta map and a `LiteralValue` node the meta map with the single entry
`type`. -/
theorem C7_meta_omitted_when_empty (vt : Expression → CtyType) (enc : TypeEncoder)
    (e : Expression) (t : AstTree)
    (hs : serializeRec vt e.walkTree = some t) (henc : t.typesEncodable enc = true) :
    ∃ j, expressionToMarshalledAst vt enc e = some (some j, none) ∧
      (∃ w, Walk vt e.walkTree ExpressionWalker.fresh = some ([], w) ∧
        w.rootTree = some t ∧ w.MarshalIndent enc = some j) ∧
      encodesNode t j = true ∧
      (∃ members, j = .obj members) ∧
      ("meta" ∈ j.keys ↔ t.meta ≠ []) ∧
      (∀ k, k ∈ j.keys → k = "children" ∨ k = "type" ∨ k = "meta" ∨ k = "range") ∧
      (∃ js, j.member "children" = some (.arr js) ∧ js.length = t.children.length ∧
        encodesNodes t.children js = true) ∧
      (∀ es sr o, e = .TupleConsExpr es sr o →
        t.type = "Tuple" ∧ t.children.length = es.length ∧
        j.keys = ["children", "type", "range"]) ∧
      (∀ items sr o, e = .ObjectConsExpr items sr o →
        t.type = "Object" ∧ t.children.length = 2 * items.length ∧
        j.keys = ["children", "type", "range"]) ∧
      (∀ v sr, e = .LiteralValueExpr v sr →
        ∃ tj, enc v.ctyType = some tj ∧
          j = .obj [("children", .arr []), ("type", .str "LiteralValue"),
            ("meta", .obj [("type", tj)]),
            ("range", marshalRangeAst (convertRangeToAst sr))]) ∧
      (∀ (w0 : ExpressionWalker) (es : List Expression) (sr o : Range), ∃ cell,
        enteredNode vt (.expr (.TupleConsExpr es sr o)) w0 = some cell ∧
        cell.Type_ = "Tuple" ∧ cell.Meta = []) ∧
      (∀ (w0 : ExpressionWalker) (items : List (Expression × Expression)) (sr o : Range),
        ∃ cell, enteredNode vt (.expr (.ObjectConsExpr items sr o)) w0 = some cell ∧
        cell.Type_ = "Object" ∧ cell.Meta = []) ∧
      (∀ (w0 : ExpressionWalker) (v : Value) (sr : Range), ∃ cell,
        enteredNode vt (.expr (.LiteralValueExpr v sr)) w0 = some cell ∧
        cell.Type_ = "LiteralValue" ∧ cell.Meta = [("type", .ctyType v.ctyType)]) := by
  have hprog := expressionToMarshalledAst_toJson vt enc e t hs
  obtain ⟨w, hw, hwt, hwm⟩ := Walk_fresh_MarshalIndent vt enc _ t hs
  cases t with
  | mk ty m rng cs =>
      have henc' := henc
      simp only [AstTree.typesEncodable, Bool.and_eq_true] at henc'
      obtain ⟨js, hjs, hcs⟩ := toJsonList_encodes enc cs henc'.2
      obtain ⟨ms, hms, hkeys⟩ := marshalMeta_some enc m henc'.1
      have hj : (AstTree.mk ty m rng cs).toJson enc
          = some (.obj ([("children", .arr js), ("type", .str ty)]
            ++ (if m.isEmpty then [] else [("meta", .obj ms)])
            ++ [("range", marshalRangeAst rng)])) := by
        simp only [AstTree.toJson, hjs, hms]
      rw [hj] at hprog hwm
      have hlen := encodesNodes_length cs js hcs
      refine ⟨_, hprog, ⟨w, hw, hwt, hwm⟩,
        encodesNode_obj ty m rng cs js ms hkeys hcs, ⟨_, rfl⟩, ?_, ?_,
        ⟨js, by simp [Json.member, List.lookup], hlen, hcs⟩, ?_, ?_, ?_, ?_, ?_, ?_⟩
      · cases m <;> simp [Json.keys, AstTree.meta]
      · intro k hk
        cases m with
        | nil =>
            simp only [Json.keys, List.isEmpty_nil, if_true, List.append_nil, List.cons_append,
              List.nil_append, List.map_cons, List.map_nil, List.mem_cons, List.mem_nil_iff,
              or_false] at hk
            rcases hk with hk | hk | hk
            · exact Or.inl hk
            · exact Or.inr (Or.inl hk)
            · exact Or.inr (Or.inr (Or.inr hk))
        | cons x xs =>
            simp only [Json.keys, List.isEmpty_cons, Bool.false_eq_true, if_false,
              List.cons_append, List.nil_append, List.map_cons, List.map_nil, List.mem_cons,
              List.mem_nil_iff, or_false] at hk
            rcases hk with hk | hk | hk | hk
            · exact Or.inl hk
            · exact Or.inr (Or.inl hk)
            · exact Or.inr (Or.inr (Or.inl hk))
            · exact Or.inr (Or.inr (Or.inr hk))
      · intro es sr o he
        subst he
        simp only [Expression.walkTree, serializeRec, Node.asExpression, Expression.StartRange,
          Expression.valueNilReturns] at hs
        cases hl : serializeRecList vt (Expression.walkTrees es) with
        | none => simp [hl] at hs
        | some ds =>
            simp only [hl, Option.some.injEq, AstTree.mk.injEq] at hs
            obtain ⟨h1, h2, _, h4⟩ := hs
            subst h4
            have hm : m = [] := by rw [← h2]; rfl
            subst hm
            refine ⟨by rw [← h1]; rfl, ?_, rfl⟩
            simp only [AstTree.children]
            rw [serializeRecList_length vt _ _ hl, walkTrees_length]
      · intro items sr o he
        subst he
        simp only [Expression.walkTree, serializeRec, Node.asExpression, Expression.StartRange,
          Expression.valueNilReturns] at hs
        cases hl : serializeRecList vt (Expression.walkItems items) with
        | none => simp [hl] at hs
        | some ds =>
            simp only [hl, Option.some.injEq, AstTree.mk.injEq] at hs
            obtain ⟨h1, h2, _, h4⟩ := hs
            subst h4
            have hm : m = [] := by rw [← h2]; rfl
            subst hm
            refine ⟨by rw [← h1]; rfl, ?_, rfl⟩
            simp only [AstTree.children]
            rw [serializeRecList_length vt _ _ hl, walkItems_length]
      · intro v sr he
        subst he
        simp only [Expression.walkTree, serializeRec, Node.asExpression, Expression.StartRange,
          Expression.valueNilReturns, serializeRecList, Option.some.injEq,
          AstTree.mk.injEq] at hs
        obtain ⟨h1, h2, h3, h4⟩ := hs
        subst h4
        have hm : m = [("type", .ctyType v.ctyType)] := by
          rw [← h2]; exact (enterCell_literal_meta vt v sr sr).2
        subst hm
        have hty : ty = "LiteralValue" := by rw [← h1]; rfl
        subst hty
        have hr : rng = convertRangeToAst sr := by rw [← h3]; exact enterCell_range vt none _ sr
        subst hr
        have hjs' : js = [] := by
          simp only [AstTree.toJsonList, Option.some.injEq] at hjs
          exact hjs.symm
        subst hjs'
        simp only [marshalMeta, mapOpt, marshalMetaValue] at hms
        cases het : enc v.ctyType with
        | none => simp [het] at hms
        | some tj =>
            simp only [het, Option.map_some', List.foldr_cons, List.foldr_nil, insertMember,
              Option.some.injEq, Json.obj.injEq] at hms
            subst hms
            exact ⟨tj, rfl, rfl⟩
      · intro w0 es sr o
        obtain ⟨cell, h1, h2, h3, _⟩ :=
          Enter_entered vt (.expr (.TupleConsExpr es sr o)) _ o rfl rfl rfl w0
        exact ⟨cell, h1, h2.trans (enterCell_tuple_meta vt es sr o o).1,
          h3.trans (enterCell_tuple_meta vt es sr o o).2⟩
      · intro w0 items sr o
        obtain ⟨cell, h1, h2, h3, _⟩ :=
          Enter_entered vt (.expr (.ObjectConsExpr items sr o)) _ o rfl rfl rfl w0
        exact ⟨cell, h1, h2.trans (enterCell_object_meta vt items sr o o).1,
          h3.trans (enterCell_object_meta vt items sr o o).2⟩
      · intro w0 v sr
        obtain ⟨cell, h1, h2, h3, _⟩ :=
          Enter_entered vt (.expr (.LiteralValueExpr v sr)) _ sr rfl rfl rfl w0
        exact ⟨cell, h1, h2.trans (enterCell_literal_meta vt v sr sr).1,
          h3.trans (enterCell_literal_meta vt v sr sr).2⟩

/-- C7 (witness): the lifted object `{"x": [1, "${a}", true]}`. Its walk returns the
`Object` node with the key template and the `Tuple` node below it, the tuple's
three elements below that; the program returns the document `exampleObjectJson`,
in which the `Object`, `Tuple`, `Template` and `TemplateWrap` nodes have no key
`meta` and the literals have `meta.type`. -/
theorem C7_meta_omitted_when_empty_witness :
    serializeRec exampleValueType (expressionForValue exampleParser exampleObject).1.walkTree
      = some exampleObjectAst ∧
    exampleObjectAst.typesEncodable exampleTypeEncoder = true ∧
    expressionToMarshalledAst exampleValueType exampleTypeEncoder
      (expressionForValue exampleParser exampleObject).1
      = some (some exampleObjectJson, none) ∧
    encodesNode exampleObjectAst exampleObjectJson = true ∧
    ∃ j, expressionToMarshalledAst exampleValueType exampleTypeEncoder
        (expressionForValue exampleParser exampleObject).1 = some (some j, none) ∧
      encodesNode exampleObjectAst j = true :=
  ⟨rfl, rfl, rfl, by decide,
    (C7_meta_omitted_when_empty exampleValueType exampleTypeEncoder
      (expressionForValue exampleParser exampleObject).1 exampleObjectAst rfl rfl).imp
      (fun _ h => ⟨h.1, h.2.2.1⟩)⟩

/-- C8: for a non-null value of object type, `expressionForValue` returns an
`ObjectConsExpr` with as many items as the element iterator yields elements, and
whose `j`-th item is the pair of the node returned by `expressionForValue` for the
`j`-th key and the node returned for the `j`-th value. -/
theorem C8_object_items_in_order (p : TemplateParser) (val : Value) (hn : val.IsNull = false)
    (ho : val.ctyType.IsObjectType = true) :
    ∃ it items, val.ElementIterator = some it ∧
      (expressionForValue p val).1 = .ObjectConsExpr items Range.zero Range.zero ∧
      items.length = it.length ∧
      ∀ j, j < it.length →
        items[j]? = (it[j]?).map (fun kv =>
          ((expressionForValue p kv.1).1, (expressionForValue p kv.2).1)) := by
  cases val with
  | object attrs =>
      refine ⟨stringKeys attrs, attrs.map (fun kv =>
        ((expressionForValue p (.string kv.1)).1, (expressionForValue p kv.2).1)), rfl, ?_, ?_, ?_⟩
      · simp [expressionForValue, objectLoop_eq]
      · simp [stringKeys_length]
      · intro j _
        rw [← List.getElem?_map, stringKeys_map]
  | null ty => simp [Value.IsNull] at hn
  | _ => simp [Value.ctyType, CtyType.IsObjectType] at ho

/-- C8 (witness): the object `{"x": [1, "${a}", true]}` is a non-null value of
object type. -/
theorem C8_object_items_in_order_witness :
    exampleObject.IsNull = false ∧ exampleObject.ctyType.IsObjectType = true ∧
    ∃ it items, exampleObject.ElementIterator = some it ∧
      (expressionForValue exampleParser exampleObject).1
        = .ObjectConsExpr items Range.zero Range.zero ∧
      items.length = it.length ∧
      ∀ j, j < it.length →
        items[j]? = (it[j]?).map (fun kv =>
          ((expressionForValue exampleParser kv.1).1,
            (expressionForValue exampleParser kv.2).1)) :=
  ⟨rfl, rfl, C8_object_items_in_order exampleParser exampleObject rfl rfl⟩

/-- C9: for a non-null string value, `expressionForValue` returns exactly the pair
that the template parser returns for the bytes of the string, the empty file name
and the all-zero start position. -/
theorem C9_string_is_parsed_as_template (p : TemplateParser) (val : Value) (hn : val.IsNull = false)
    (hs : val.ctyType.IsString = true) :
    ∃ raw, val.AsString = some raw ∧
      expressionForValue p val = p raw "" ⟨0, 0, 0⟩ := by
  cases val with
  | string s => exact ⟨s, rfl, rfl⟩
  | null ty => simp [Value.IsNull] at hn
  | _ => simp [Value.ctyType, CtyType.IsString] at hs

/-- C9 (witness): the string `${a}` is a non-null string value. -/
theorem C9_string_is_parsed_as_template_witness :
    (Value.string "${a}").IsNull = false ∧ (Value.string "${a}").ctyType.IsString = true ∧
    ∃ raw, (Value.string "${a}").AsString = some raw ∧
      expressionForValue exampleParser (Value.string "${a}")
        = exampleParser raw "" ⟨0, 0, 0⟩ :=
  ⟨rfl, rfl, C9_string_is_parsed_as_template exampleParser (Value.string "${a}") rfl rfl⟩

/-- C10: for a null value of any type, `expressionForValue` returns the
`LiteralValueExpr` holding that value and no diagnostics, whatever the template
parser is; a call depth of one suffices, so no recursive call is made. -/
theorem C10_null_is_literal (p : TemplateParser) (val : Value) (hn : val.IsNull = true) :
    expressionForValue p val = (.LiteralValueExpr val Range.zero, []) ∧
    expressionForValueFuel p 1 val = some (.LiteralValueExpr val Range.zero, []) := by
  cases val with
  | null ty => exact ⟨rfl, rfl⟩
  | _ => simp [Value.IsNull] at hn

/-- C10 (witness): the null value of a tuple type. -/
theorem C10_null_is_literal_witness :
    (Value.null (.tuple [.string])).IsNull = true ∧
    (expressionForValue exampleParser (Value.null (.tuple [.string]))
      = (.LiteralValueExpr (Value.null (.tuple [.string])) Range.zero, []) ∧
    expressionForValueFuel exampleParser 1 (Value.null (.tuple [.string]))
      = some (.LiteralValueExpr (Value.null (.tuple [.string])) Range.zero, [])) :=
  ⟨rfl, C10_null_is_literal exampleParser (Value.null (.tuple [.string])) rfl⟩

/-- C11: for a non-null value that is not a string and has neither a tuple type nor
an object type (a number, a bool, a list, a map), `expressionForValue` returns the
`LiteralValueExpr` holding exactly that value and an empty list of diagnostics; a
call depth of one suffices, and no library method that can panic is called. -/
theorem C11_fallback_is_literal (p : TemplateParser) (val : Value) (hn : val.IsNull = false)
    (hs : val.ctyType.IsString = false) (ht : val.ctyType.IsTupleType = false)
    (ho : val.ctyType.IsObjectType = false) :
    expressionForValue p val = (.LiteralValueExpr val Range.zero, []) ∧
    expressionForValueFuel p 1 val = some (.LiteralValueExpr val Range.zero, []) := by
  cases val with
  | null ty => simp [Value.IsNull] at hn
  | string s => simp [Value.ctyType, CtyType.IsString] at hs
  | tuple elems => simp [Value.ctyType, CtyType.IsTupleType] at ht
  | object attrs => simp [Value.ctyType, CtyType.IsObjectType] at ho
  | number n => exact ⟨rfl, rfl⟩
  | bool b => exact ⟨rfl, rfl⟩
  | list ety elems => exact ⟨rfl, rfl⟩
  | map ety elems => exact ⟨rfl, rfl⟩

/-- C11 (witness): the value `true` is non-null and is neither a string nor of tuple
or object type. -/
theorem C11_fallback_is_literal_witness :
    (Value.bool true).IsNull = false ∧ (Value.bool true).ctyType.IsString = false ∧
    (Value.bool true).ctyType.IsTupleType = false ∧
    (Value.bool true).ctyType.IsObjectType = false ∧
    (expressionForValue exampleParser (Value.bool true)
      = (.LiteralValueExpr (Value.bool true) Range.zero, []) ∧
    expressionForValueFuel exampleParser 1 (Value.bool true)
      = some (.LiteralValueExpr (Value.bool true) Range.zero, [])) :=
  ⟨rfl, rfl, rfl, rfl, C11_fallback_is_literal exampleParser (Value.bool true) rfl rfl rfl rfl⟩

/-- C12: for a non-null value of tuple type the returned diagnostics are the
concatenation, in element order, of the diagnostics returned for each element, and
the node has one child per element; for a non-null value of object type they are
the concatenation, in element order, of the diagnostics of the key followed by the
diagnostics of the value, and the node has one item per element. -/
theorem C12_diagnostics_are_concatenated (p : TemplateParser) (tup obj : Value)
    (htn : tup.IsNull = false) (htt : tup.ctyType.IsTupleType = true)
    (hon : obj.IsNull = false) (hoo : obj.ctyType.IsObjectType = true) :
    (∃ it exprs, tup.ElementIterator = some it ∧
      (expressionForValue p tup).1 = .TupleConsExpr exprs Range.zero Range.zero ∧
      exprs.length = it.length ∧
      (expressionForValue p tup).2
        = (it.map (fun kv => (expressionForValue p kv.2).2)).flatten) ∧
    (∃ it items, obj.ElementIterator = some it ∧
      (expressionForValue p obj).1 = .ObjectConsExpr items Range.zero Range.zero ∧
      items.length = it.length ∧
      (expressionForValue p obj).2
        = (it.map (fun kv =>
            (expressionForValue p kv.1).2 ++ (expressionForValue p kv.2).2)).flatten) := by
  constructor
  · cases tup with
    | tuple elems =>
        refine ⟨indexKeys 0 elems, elems.map (fun v => (expressionForValue p v).1), rfl, ?_, ?_, ?_⟩
        · simp [expressionForValue, tupleLoop_eq]
        · have h := congrArg List.length (indexKeys_map_snd 0 elems)
          simp only [List.length_map] at h
          simp [h]
        · have h : (indexKeys 0 elems).map (fun kv => (expressionForValue p kv.2).2)
              = elems.map (fun v => (expressionForValue p v).2) := by
            conv_rhs => rw [← indexKeys_map_snd 0 elems]
            simp only [List.map_map]
            rfl
          rw [h]
          simp [expressionForValue, tupleLoop_eq]
    | null ty => simp [Value.IsNull] at htn
    | _ => simp [Value.ctyType, CtyType.IsTupleType] at htt
  · cases obj with
    | object attrs =>
        refine ⟨stringKeys attrs, attrs.map (fun kv =>
          ((expressionForValue p (.string kv.1)).1, (expressionForValue p kv.2).1)),
          rfl, ?_, ?_, ?_⟩
        · simp [expressionForValue, objectLoop_eq]
        · simp [stringKeys_length]
        · rw [stringKeys_map]
          simp [expressionForValue, objectLoop_eq]
    | null ty => simp [Value.IsNull] at hon
    | _ => simp [Value.ctyType, CtyType.IsObjectType] at hoo

/-- C12 (witness): with a parser that reports a diagnostic for every string, the
tuple `["a", 1, "b"]` and the object `{"k": "a"}`. -/
theorem C12_diagnostics_are_concatenated_witness :
    exampleStringTuple.IsNull = false ∧ exampleStringTuple.ctyType.IsTupleType = true ∧
    exampleStringObject.IsNull = false ∧ exampleStringObject.ctyType.IsObjectType = true ∧
    ((∃ it exprs, exampleStringTuple.ElementIterator = some it ∧
      (expressionForValue exampleDiagParser exampleStringTuple).1
        = .TupleConsExpr exprs Range.zero Range.zero ∧
      exprs.length = it.length ∧
      (expressionForValue exampleDiagParser exampleStringTuple).2
        = (it.map (fun kv => (expressionForValue exampleDiagParser kv.2).2)).flatten) ∧
    (∃ it items, exampleStringObject.ElementIterator = some it ∧
      (expressionForValue exampleDiagParser exampleStringObject).1
        = .ObjectConsExpr items Range.zero Range.zero ∧
      items.length = it.length ∧
      (expressionForValue exampleDiagParser exampleStringObject).2
        = (it.map (fun kv =>
            (expressionForValue exampleDiagParser kv.1).2
              ++ (expressionForValue exampleDiagParser kv.2).2)).flatten)) :=
  ⟨rfl, rfl, rfl, rfl,
    C12_diagnostics_are_concatenated exampleDiagParser exampleStringTuple exampleStringObject rfl rfl rfl rfl⟩

/-- C13: `convertTraversal t` keeps, in their order, the root steps and the
attribute-access steps of `t`, each as `{segment: name, range: source range}`, and
drops every other step, so its length is the number of root and attribute steps;
`Enter` stores this list under `traversal` for a scope-traversal node. -/
theorem C13_convertTraversal_keeps_root_and_attr_steps (t : Traversal) :
    convertTraversal t = t.filterMap traversalEntry ∧
    (convertTraversal t).length = t.countP Traverser.isRootOrAttr ∧
    (∀ (vt : Expression → CtyType) (w : ExpressionWalker) (sr : Range), ∃ cell,
      enteredNode vt (.expr (.ScopeTraversalExpr t sr)) w = some cell ∧
      cell.Type_ = "ScopeTraversal" ∧
      cell.Meta = [("traversal", .traversal (convertTraversal t))]) := by
  have h : convertTraversal t = t.filterMap traversalEntry :=
    convertTraversal_foldl t []
  refine ⟨h, ?_, ?_⟩
  · rw [h, filterMap_traversalEntry_length]
  · intro vt w sr
    obtain ⟨cell, h1, h2, h3, _⟩ :=
      Enter_entered vt (.expr (.ScopeTraversalExpr t sr)) _ sr rfl rfl rfl w
    exact ⟨cell, h1, h2.trans (enterCell_scope_traversal vt t sr sr).1,
      h3.trans (enterCell_scope_traversal vt t sr sr).2⟩

/-- C14 (failing input): the walk of a `for` expression hands `Enter` a `ChildScope`
node, which is none of the fifteen listed variants; `Enter` panics on it in every
state of the walker, at the type assertion `node.(hclsyntax.Expression)`. For the
other unlisted variants, which are expressions, `Enter` returns no diagnostics and
creates a node with the empty string as type and an empty meta map. -/
theorem C14_enter_panics_on_child_scope (vt : Expression → CtyType) (w : ExpressionWalker) :
    (∀ names e, Enter vt (.ChildScope names e) w = none) ∧
    (∀ kv vv coll val sr o,
      (Expression.ForExpr kv vv coll none val none sr o).walkTree
        = .mk (.expr (.ForExpr kv vv coll none val none sr o))
            [coll.walkTree, .mk (.ChildScope (forScopeNames kv vv) val) [val.walkTree]]) ∧
    (∀ r cs, (Enter vt (.expr (.OtherExpr r cs)) w).map Prod.fst = some [] ∧
      ∃ cell, enteredNode vt (.expr (.OtherExpr r cs)) w = some cell ∧
        cell.Type_ = "" ∧ cell.Meta = [] ∧ cell.Range = convertRangeToAst r) := by
  refine ⟨fun _ _ => rfl, fun _ _ _ _ _ _ => rfl, ?_⟩
  intro r cs
  refine ⟨Enter_diags vt (.expr (.OtherExpr r cs)) (.OtherExpr r cs) r rfl rfl rfl w, ?_⟩
  obtain ⟨cell, h1, h2, h3, h4⟩ := Enter_entered vt (.expr (.OtherExpr r cs)) _ r rfl rfl rfl w
  exact ⟨cell, h1, h2, h3, h4⟩

/-- C15: `Exit` with a non-empty stack removes the top entry and makes it the current
node, and `Exit` with an empty stack changes nothing; in both cases the root object
and every heap object are unchanged, and no diagnostics are returned. -/
theorem C15_exit_pops_or_keeps (node : Node) (root : ExpressionAst) (stack : List Ptr) (top : Ptr)
    (current : Option Ptr) (heap : List ExpressionAst) :
    Exit node { Root := root, Stack := stack ++ [top], Current := current, heap := heap }
      = ([], { Root := root, Stack := stack, Current := some top, heap := heap }) ∧
    Exit node { Root := root, Stack := [], Current := current, heap := heap }
      = ([], { Root := root, Stack := [], Current := current, heap := heap }) := by
  constructor
  · simp [Exit]
  · simp [Exit]

/-- C16 (failing input): `expressionToMarshalledAst` never returns an error: either
it panics or its error is nil. For a literal whose value has a capsule type the
encoding of `walker.Root` fails, and the function returns the empty text with a nil
error. The `parseExpression` handler does return a non-nil error when
`json.Marshal` fails: `return nil, err` converts the nil `hcl.Diagnostics` to a
non-nil `error`. -/
theorem C16_marshal_error_is_dropped :
    (∀ (vt : Expression → CtyType) (enc : TypeEncoder) (expr : Expression),
      expressionToMarshalledAst vt enc expr = none ∨
      ∃ m, expressionToMarshalledAst vt enc expr = some (m, none)) ∧
    expressionToMarshalledAst exampleValueType exampleTypeEncoder exampleCapsuleLiteral
      = some (none, none) ∧
    (∀ (vt : Expression → CtyType),
      (Walk vt exampleCapsuleLiteral.walkTree ExpressionWalker.fresh).bind
        (fun r => r.2.MarshalIndent exampleTypeEncoder) = none) ∧
    parseExpressionHandler exampleLibraries [.string "main.tf", .string "{}"]
      = some ⟨none, some (.diagnostics [])⟩ := by
  refine ⟨?_, rfl, fun _ => rfl, rfl⟩
  intro vt enc expr
  simp only [expressionToMarshalledAst]
  cases Walk vt expr.walkTree ExpressionWalker.fresh with
  | none => exact Or.inl rfl
  | some r => exact Or.inr ⟨_, rfl⟩

/-- C17 (counterexample): the claim says that `Enter` on an operation node completes
for every operator that is not a key of `operationNamesLookup`. The operation
`&hclsyntax.Operation{}` is not a key and `getOperationName` returns the empty
string for it, but `Enter` on the unary node that applies it to the literal `1`,
and on the binary node that applies it to `1` and `2`, panics with a fresh walker:
the type switch calls `Value(nil)` on the node before it writes `meta.operator`,
and that call uses the implementation of the operation, which is not set. -/
theorem C17_enter_panics_without_implementation :
    Operation.other 0 false ∉ operationNamesLookup.map Prod.fst ∧
    getOperationName (.other 0 false) = "" ∧
    Enter exampleValueType
      (.expr (.UnaryOpExpr (.other 0 false)
        (.LiteralValueExpr (NumberIntVal 1) (byteRange 1 2)) (byteRange 0 2) (byteRange 0 1)))
      ExpressionWalker.fresh = none ∧
    Enter exampleValueType
      (.expr (.BinaryOpExpr (.LiteralValueExpr (NumberIntVal 1) (byteRange 0 1))
        (.other 0 false) (.LiteralValueExpr (NumberIntVal 2) (byteRange 4 5)) (byteRange 0 5)))
      ExpressionWalker.fresh = none :=
  ⟨by decide, rfl, rfl, rfl⟩

/-- C17 (amended): for an operator that is not a key of `operationNamesLookup`,
`getOperationName` returns the empty string. If the operation has an
implementation, then in every state of the walker `Enter` on a unary operation with
that operator, and on a binary operation with that operator whose start range is
defined, creates a node whose `operator` meta entry is the empty string. If the
operation has no implementation, `Enter` panics on every unary and binary operation
with that operator, in every state of the walker. -/
theorem C17_unknown_operator_is_empty (vt : Expression → CtyType) (w : ExpressionWalker)
    (op : Operation) (h : op ∉ operationNamesLookup.map Prod.fst) :
    getOperationName op = "" ∧
    (op.hasImpl = true →
      (∀ val sr sym, ∃ cell,
        enteredNode vt (.expr (.UnaryOpExpr op val sr sym)) w = some cell ∧
        cell.Type_ = "UnaryOp" ∧ cell.Meta.lookup "operator" = some (.str "")) ∧
      (∀ lhs rhs sr r, lhs.StartRange = some r → ∃ cell,
        enteredNode vt (.expr (.BinaryOpExpr lhs op rhs sr)) w = some cell ∧
        cell.Type_ = "BinaryOp" ∧ cell.Meta.lookup "operator" = some (.str ""))) ∧
    (op.hasImpl = false →
      (∀ val sr sym, Enter vt (.expr (.UnaryOpExpr op val sr sym)) w = none) ∧
      (∀ lhs rhs sr, Enter vt (.expr (.BinaryOpExpr lhs op rhs sr)) w = none)) := by
  have hn : getOperationName op = "" := by
    cases op with
    | other id b => rfl
    | _ => exact absurd (by decide) h
  refine ⟨hn, ?_, ?_⟩
  · intro hi
    refine ⟨?_, ?_⟩
    · intro val sr sym
      obtain ⟨cell, h1, h2, h3, _⟩ :=
        Enter_entered vt (.expr (.UnaryOpExpr op val sr sym)) _ sym rfl rfl hi w
      refine ⟨cell, h1, ?_, ?_⟩
      · rw [h2]; rfl
      · rw [h3, (enterCell_unary_operator vt op val sr sym sym).2, hn]
    · intro lhs rhs sr r hr
      obtain ⟨cell, h1, h2, h3, _⟩ :=
        Enter_entered vt (.expr (.BinaryOpExpr lhs op rhs sr)) _ r rfl
          (by simpa [Expression.StartRange] using hr) hi w
      refine ⟨cell, h1, ?_, ?_⟩
      · rw [h2]; rfl
      · rw [h3, (enterCell_binary_operator vt op lhs rhs sr r).2, hn]
  · intro hi
    exact ⟨fun val sr sym => Enter_value_panics vt _ (.UnaryOpExpr op val sr sym) w rfl hi,
      fun lhs rhs sr => Enter_value_panics vt _ (.BinaryOpExpr lhs op rhs sr) w rfl hi⟩

/-- C17 (witness): an operation that is not one of the fifteen package-level
operations and has an implementation, such as a copy of `OpNegate`: `Enter` writes
the empty string as the operator name of a unary and of a binary node that use
it. -/
theorem C17_unknown_operator_is_empty_witness :
    Operation.other 0 true ∉ operationNamesLookup.map Prod.fst ∧
    getOperationName (.other 0 true) = "" ∧
    (∀ val sr sym, ∃ cell,
      enteredNode exampleValueType (.expr (.UnaryOpExpr (.other 0 true) val sr sym))
        ExpressionWalker.fresh = some cell ∧
      cell.Type_ = "UnaryOp" ∧ cell.Meta.lookup "operator" = some (.str "")) ∧
    (∀ lhs rhs sr r, lhs.StartRange = some r → ∃ cell,
      enteredNode exampleValueType (.expr (.BinaryOpExpr lhs (.other 0 true) rhs sr))
        ExpressionWalker.fresh = some cell ∧
      cell.Type_ = "BinaryOp" ∧ cell.Meta.lookup "operator" = some (.str "")) :=
  ⟨by decide,
    (C17_unknown_operator_is_empty exampleValueType ExpressionWalker.fresh
      (.other 0 true) (by decide)).1,
    ((C17_unknown_operator_is_empty exampleValueType ExpressionWalker.fresh
      (.other 0 true) (by decide)).2.1 rfl).1,
    ((C17_unknown_operator_is_empty exampleValueType ExpressionWalker.fresh
      (.other 0 true) (by decide)).2.1 rfl).2⟩

/-- C18 (failing input): on every tree the walk with a fresh walker and the direct
recursive serialization agree, failure included: the walk returns exactly when the
recursive serialization is defined, and then leaves it in `walker.Root`. For the
template `${[for v in l : v]}` neither is defined: the walk panics on the
`ChildScope` node, so `walker.Root` is never left equal to `rec(e)`. -/
theorem C18_walk_equals_recursive_serialization (vt : Expression → CtyType) :
    (∀ t : NodeTree,
      (Walk vt t ExpressionWalker.fresh).bind (fun r => r.2.rootTree) = serializeRec vt t) ∧
    Walk vt exampleFor.walkTree ExpressionWalker.fresh = none ∧
    serializeRec vt exampleFor.walkTree = none :=
  ⟨Walk_fresh_eq_serializeRec vt, rfl, rfl⟩

/-- C19: in every state reached from a fresh walker by a prefix of the calls of a
walk with `d` open nodes, `d ≥ 1`, a node is current, its `Parent` link is the top
of the stack (nil exactly when the stack is empty), the stack holds `d - 1` nodes,
following `Parent` links from the current node visits exactly the stack from top to
bottom, and the bottom of the stack (or the current node, when the stack is empty)
is the root object. After a complete walk that returns, the stack is empty and the
current node is the root object. The walk of a tree makes exactly the calls of
`NodeTree.events`. -/
theorem C19_stack_holds_ancestors (vt : Expression → CtyType) (evs : List Event) (w : ExpressionWalker) (d : Nat)
    (hr : runEvents vt evs ExpressionWalker.fresh = some w)
    (ho : openNodes 0 evs = some d) (hd : 1 ≤ d)
    (t : NodeTree) (dt : Diagnostics) (wt : ExpressionWalker)
    (hwalk : Walk vt t ExpressionWalker.fresh = some (dt, wt)) :
    (∃ cur cell, w.Current = some cur ∧ w.deref cur = some cell ∧
      cell.Parent = w.Stack.getLast? ∧
      (cell.Parent = none ↔ w.Stack = []) ∧
      w.Stack.length + 1 = d ∧
      (∀ fuel, w.Stack.length < fuel → w.parentChain fuel cur = w.Stack.reverse) ∧
      (w.Stack ++ [cur]).head? = some Ptr.root) ∧
    (wt.Stack = [] ∧ wt.Current = some Ptr.root) ∧
    (∀ (t' : NodeTree) (w0 : ExpressionWalker),
      (Walk vt t' w0).map Prod.snd = runEvents vt t'.events w0) := by
  obtain ⟨cur, hcur, hchain, hlen⟩ := StackInvariant_fresh_run vt evs w d hr ho hd
  obtain ⟨cell, hderef, hpar⟩ := UpChain_parent w _ cur hchain
  have hpar' : cell.Parent = w.Stack.getLast? := by rw [hpar, List.head?_reverse]
  refine ⟨⟨cur, cell, hcur, hderef, hpar', ?_, hlen, ?_, ?_⟩, ?_, Walk_eq_runEvents vt⟩
  · rw [hpar']
    cases hS : w.Stack.getLast? with
    | none => simpa using List.getLast?_eq_none_iff.mp hS
    | some x =>
        constructor
        · intro h
          cases h
        · intro hnil
          rw [hnil] at hS
          simp at hS
  · intro fuel hf
    exact UpChain_parentChain w _ cur fuel hchain (by simpa using hf)
  · have h := UpChain_root_first w _ cur hchain
    simpa using h
  · have he : t.enterable = true := by
      rw [← Walk_fresh_isSome vt, hwalk]; rfl
    obtain ⟨w', hw', hs, hc, _⟩ := Walk_fresh_rootTree vt t he
    rw [hwalk] at hw'
    simp only [Option.some.injEq, Prod.mk.injEq] at hw'
    obtain ⟨_, hww⟩ := hw'
    subst hww
    exact ⟨hs, hc⟩

/-- C19 (witness): the walker after `Enter [1, 2]`, `Enter 1`, `Exit 1`, `Enter 2`,
and after the complete walk of `foo(1, 2)`. -/
theorem C19_stack_holds_ancestors_witness :
    runEvents exampleValueType exampleEvents ExpressionWalker.fresh = some exampleEventsState ∧
    openNodes 0 exampleEvents = some 2 ∧ 1 ≤ 2 ∧
    Walk exampleValueType exampleCall.walkTree ExpressionWalker.fresh
      = some ([], exampleWalkState) ∧
    ((∃ cur cell, exampleEventsState.Current = some cur ∧
      exampleEventsState.deref cur = some cell ∧
      cell.Parent = exampleEventsState.Stack.getLast? ∧
      (cell.Parent = none ↔ exampleEventsState.Stack = []) ∧
      exampleEventsState.Stack.length + 1 = 2 ∧
      (∀ fuel, exampleEventsState.Stack.length < fuel →
        exampleEventsState.parentChain fuel cur = exampleEventsState.Stack.reverse) ∧
      (exampleEventsState.Stack ++ [cur]).head? = some Ptr.root) ∧
    (exampleWalkState.Stack = [] ∧ exampleWalkState.Current = some Ptr.root) ∧
    (∀ (t' : NodeTree) (w0 : ExpressionWalker),
      (Walk exampleValueType t' w0).map Prod.snd
        = runEvents exampleValueType t'.events w0)) :=
  ⟨rfl, rfl, by decide, rfl,
    C19_stack_holds_ancestors exampleValueType exampleEvents exampleEventsState 2 rfl rfl (by decide)
      exampleCall.walkTree [] exampleWalkState rfl⟩

/-- C20 (failing input): with exactly one argument left after the callback is
stripped, each of the three handlers passes the `len(args) == 0` guard and panics
on the index expression `args[1]`; with no argument each returns the error
`No arguments provided`. -/
theorem C20_single_argument_panics {E : Type} (lib : Libraries E) (a cb : JsValue) :
    parseHandler lib [a] = none ∧
    parseExpressionHandler lib [a] = none ∧
    getExpressionAstHandler lib [a] = none ∧
    registrationWrapper (parseHandler lib) [a, cb] = none ∧
    registrationWrapper (parseExpressionHandler lib) [a, cb] = none ∧
    registrationWrapper (getExpressionAstHandler lib) [a, cb] = none ∧
    parseHandler lib [] = some ⟨none, some (.errorf "No arguments provided")⟩ ∧
    parseExpressionHandler lib [] = some ⟨none, some (.errorf "No arguments provided")⟩ ∧
    getExpressionAstHandler lib [] = some ⟨none, some (.errorf "No arguments provided")⟩ :=
  ⟨rfl, rfl, rfl, rfl, rfl, rfl, rfl, rfl, rfl⟩

end Hcl2Json
